import Mathlib

/-!
Package randomgraph: validation and the two random graph generators.

A shallow embedding of `randomgraph.go`.

* `Vertex`, `Vertices`, `Graph` are the source's types.  A Go `nil` slice has
  length 0 and is represented by `[]`.
* A Go map is an association list in insertion order with distinct keys;
  the order in which `range` visits a map is unspecified in Go and is supplied
  by a `MapOrder`.
* The package-level random source is passed explicitly as a `Rand`: the values
  that the successive calls of `rand.Perm` and `rand.Intn` return.
* The queue loop of `canAdd` need not end on a map with a cycle, so it takes a
  bound `fuel` on its iterations and returns `none` when the bound is reached.
  A generator returns `none` when a `canAdd` does, or when the `Rand` holds no
  (or no possible) answer for a call; otherwise `some` of the Go result.
-/

namespace RandomGraph

/-! ## Data model -/

/-- Source: `type Vertex string`. -/
abbrev Vertex := String

/-- Source: `type Vertices []Vertex`. -/
abbrev Vertices := List Vertex

/-- Source: `type Graph map[Vertex]Vertices`. -/
abbrev Graph := List (Vertex × Vertices)

/-- The bookkeeping map `m` of both generators, `map[Vertex]map[Vertex]bool`:
each key with the set of vertices recorded under it. -/
abbrev VMap := List (Vertex × List Vertex)

/-- The two errors `ValidVertices` builds: `errors.New("nil or inadequate vertices")`
and `fmt.Errorf("repeated vertex %v", v)`. -/
inductive VError where
  | inadequate : VError
  | repeated (v : Vertex) : VError
  deriving DecidableEq

/-- The text of the error, as `Error()` returns it. -/
def VError.message : VError → String
  | .inadequate => "nil or inadequate vertices"
  | .repeated v => "repeated vertex " ++ v

/-! ## ValidVertices -/

/-- The `for _, v := range vs` loop of `ValidVertices`; `seen` holds the keys of
the map `seen`. -/
def dupScan : Vertices → List Vertex → Option VError
  | [], _ => none
  | v :: rest, seen =>
    if v ∈ seen then some (VError.repeated v) else dupScan rest (v :: seen)

/-- Source: `ValidVertices`.  `none` is the `nil` error. -/
def ValidVertices (vs : Vertices) : Option VError :=
  if vs.length < 2 then some VError.inadequate else dupScan vs []

/-! ## Go maps -/

/-- The value stored under key `x`: `m[x]` together with its `exists` flag. -/
def lookup : VMap → Vertex → Option (List Vertex)
  | [], _ => none
  | (k, s) :: rest, x => if k = x then some s else lookup rest x

/-- The keys of a map, in insertion order. -/
def keys (m : VMap) : List Vertex := m.map Prod.fst

/-- Source: `if _, exists := m[k]; !exists { m[k] = make(map[Vertex]bool) }`. -/
def ensureKey (m : VMap) (k : Vertex) : VMap :=
  match lookup m k with
  | some _ => m
  | none => m ++ [(k, [])]

/-- Source: `s[x] = true` on an inner map `s` of type `map[Vertex]bool`, given
by its keys: a key that is present stays where it is. -/
def setAdd (s : List Vertex) (x : Vertex) : List Vertex :=
  if x ∈ s then s else s ++ [x]

/-- Source: `m[k][x] = true`.  Every such write in the source comes after the
key `k` was created, so the case of a missing key (a write to a nil map in Go)
does not arise; the embedding leaves the map unchanged there. -/
def setTrue : VMap → Vertex → Vertex → VMap
  | [], _, _ => []
  | (k', s) :: rest, k, x =>
    if k' = k then (k', setAdd s x) :: rest
    else (k', s) :: setTrue rest k x

/-- The order in which each `range` over an inner map visits its keys.  Go
leaves it unspecified and it may differ from one loop to the next:
`bfs srcTry dstTry n` orders the `range m[head]` of the `n`-th queue step of
the call `canAdd(srcTry, dstTry)`, and `out src` orders the `range m[src]` that
fills `g[src]`.  Each is a rearrangement of the keys it is given. -/
structure MapOrder where
  bfs : Vertex → Vertex → Nat → List Vertex → List Vertex
  out : Vertex → List Vertex → List Vertex
  bfs_perm : ∀ s d n ks, (bfs s d n ks).Perm ks
  out_perm : ∀ k ks, (out k ks).Perm ks

/-- Every `range` visits the keys in insertion order. -/
def insertionOrder : MapOrder where
  bfs := fun _ _ _ ks => ks
  out := fun _ ks => ks
  bfs_perm := fun _ _ _ ks => List.Perm.refl ks
  out_perm := fun _ ks => List.Perm.refl ks

/-- Every `range` visits the keys in reverse insertion order. -/
def reverseOrder : MapOrder where
  bfs := fun _ _ _ ks => ks.reverse
  out := fun _ ks => ks.reverse
  bfs_perm := fun _ _ _ ks => List.reverse_perm ks
  out_perm := fun _ ks => List.reverse_perm ks

/-! ## The randomness source -/

/-- The values the random source hands out: `perms` are the results of the
successive `rand.Perm` calls, `ints` those of the successive `rand.Intn` calls.
A call that finds its list empty, or finds a value the real function cannot
return, yields `none`: the `Rand` does not describe that run. -/
structure Rand where
  perms : List (List Nat)
  ints : List Nat
  deriving DecidableEq

/-- Source: `rand.Perm(n)`, a permutation of `0, ..., n-1`. -/
def randPerm (n : Nat) (r : Rand) : Option (List Nat × Rand) :=
  match r.perms with
  | [] => none
  | p :: rest =>
    if p.Perm (List.range n) then some (p, { r with perms := rest }) else none

/-- Source: `for i, j := range ps { out[i] = from[j] }`, where `out` has the
length of `ps`.  `ps` comes from `rand.Perm(len(from))`, so every `j` is a valid
index and the default of `getD` is never used. -/
def shuffle (ps : List Nat) (frm : Vertices) : Vertices :=
  ps.map (fun j => frm.getD j "")

/-! ## UndirectedCyclic -/

/-- Source: `for { pick = rand.Intn(l); if pick != 0 { break } }`, on the list of
values `rand.Intn` still has to return.  Every value read is one call of
`rand.Intn(l)`, whose result lies in `[0, l)`; the loop goes on while it is 0. -/
def drawPick (l : Nat) : List Nat → Option (Nat × List Nat)
  | [] => none
  | x :: rest =>
    if x < l then (if x ≠ 0 then some (x, rest) else drawPick l rest) else none

/-- Source: the loop `for _, dst := range vsShuf` of `UndirectedCyclic`, with
the counter `picked` and the map `m` as state. -/
def ucWalk (src : Vertex) (pick : Nat) : Vertices → Nat → VMap → VMap
  | [], _, m => m
  | dst :: rest, picked, m =>
    if dst ≠ src then
      let m1 := setTrue (ensureKey (setTrue m src dst) dst) dst src
      if picked + 1 = pick then m1 else ucWalk src pick rest (picked + 1) m1
    else
      if picked = pick then m else ucWalk src pick rest picked m

/-- Source: the loop `for _, src := range vsSrc` of `UndirectedCyclic`. -/
def ucLoop (vsSrc : Vertices) (l : Nat) : Vertices → VMap → Rand → Option (VMap × Rand)
  | [], m, r => some (m, r)
  | src :: rest, m, r =>
    match randPerm l r with
    | none => none
    | some (ps, r1) =>
      match drawPick l r1.ints with
      | none => none
      | some (pick, ints2) =>
        ucLoop vsSrc l rest
          (ucWalk src pick (shuffle ps vsSrc) 0 (ensureKey m src))
          { r1 with ints := ints2 }

/-- Source: "Turn m into a Graph".  `g` is itself a map, so the order in which
the outer `range m` fills it is not observable; the order of each slice
`g[src]` is the order of `range m[src]`. -/
def toGraph (o : MapOrder) (m : VMap) : Graph :=
  m.map (fun e => (e.1, o.out e.1 e.2))

/-- What a generator returns, `(Graph, error)`, each possibly `nil`, and the
random source as the call leaves it. -/
structure Result where
  graph : Option Graph
  err : Option VError
  rand : Rand
  deriving DecidableEq

/-- Source: `UndirectedCyclic`. -/
def UndirectedCyclic (o : MapOrder) (vs : Vertices) (r : Rand) : Option Result :=
  match ValidVertices vs with
  | some e => some ⟨none, some e, r⟩
  | none =>
    match randPerm vs.length r with
    | none => none
    | some (ps, r1) =>
      match ucLoop (shuffle ps vs) vs.length (shuffle ps vs) [] r1 with
      | none => none
      | some (m, r2) => some ⟨some (toGraph o m), none, r2⟩

/-! ## DirectedAcyclic -/

/-- Source: the loop `for len(q) != 0` of `canAdd`.  `fuel` bounds the number of
iterations (`none` when it is used up), `n` counts them, `ord n` is the order
of `range m[head]` in iteration `n`. -/
def canAddLoop (ord : Nat → List Vertex → List Vertex) (m : VMap) (srcTry : Vertex) :
    Nat → Nat → Vertices → Option Bool
  | _, _, [] => some true
  | 0, _, _ :: _ => none
  | fuel + 1, n, head :: q =>
    if head = srcTry then some false
    else
      match lookup m head with
      | none => canAddLoop ord m srcTry fuel (n + 1) q
      | some ks =>
        canAddLoop ord m srcTry fuel (n + 1) (q ++ (ord n ks).filter (fun k => k ∉ q))

/-- Source: the closure `canAdd` of `DirectedAcyclic`, over the current `m`. -/
def canAdd (fuel : Nat) (o : MapOrder) (m : VMap) (srcTry dstTry : Vertex) : Option Bool :=
  if srcTry = dstTry then some false
  else canAddLoop (o.bfs srcTry dstTry) m srcTry fuel 0 [dstTry]

/-- Source: the loop `for _, dst := range vsShuf` of `DirectedAcyclic`. -/
def daInner (fuel : Nat) (o : MapOrder) (src : Vertex) : Vertices → VMap → Option VMap
  | [], m => some m
  | dst :: rest, m =>
    if dst ≠ src then
      match canAdd fuel o m src dst with
      | none => none
      | some true => daInner fuel o src rest (setTrue m src dst)
      | some false => daInner fuel o src rest m
    else daInner fuel o src rest m

/-- Source: the loop `for _, src := range vsSrc` of `DirectedAcyclic`. -/
def daLoop (fuel : Nat) (o : MapOrder) (vsSrc : Vertices) (l : Nat) :
    Vertices → VMap → Rand → Option (VMap × Rand)
  | [], m, r => some (m, r)
  | src :: rest, m, r =>
    match randPerm l r with
    | none => none
    | some (ps, r1) =>
      match daInner fuel o src (shuffle ps vsSrc) (ensureKey m src) with
      | none => none
      | some m1 => daLoop fuel o vsSrc l rest m1 r1

/-- Source: `DirectedAcyclic`; `fuel` bounds the iterations of each `canAdd`. -/
def DirectedAcyclic (fuel : Nat) (o : MapOrder) (vs : Vertices) (r : Rand) : Option Result :=
  match ValidVertices vs with
  | some e => some ⟨none, some e, r⟩
  | none =>
    match randPerm vs.length r with
    | none => none
    | some (ps, r1) =>
      match daLoop fuel o (shuffle ps vs) vs.length (shuffle ps vs) [] r1 with
      | none => none
      | some (m, r2) => some ⟨some (toGraph o m), none, r2⟩

/-! ## Notions the claims are stated with -/

/-- The edge `u -> v` is in `g`: `v` is listed in `g[u]`. -/
def Edge (g : Graph) (u v : Vertex) : Prop :=
  ∃ ds, lookup g u = some ds ∧ v ∈ ds

/-- From `u` one reaches `v` through one or more edges of `g`. -/
def Reaches (g : Graph) : Vertex → Vertex → Prop :=
  Relation.TransGen (Edge g)

/-- What the loops of `UndirectedCyclic` keep true of `m`, for vertices drawn
from `V`: every edge has its mirror, no vertex is its own neighbour, the keys
are distinct and all come from `V`. -/
structure UCInv (V : Vertices) (m : VMap) : Prop where
  sym : ∀ a b, Edge m a b → Edge m b a
  noself : ∀ a, ¬ Edge m a a
  keys_nodup : (keys m).Nodup
  keys_sub : ∀ k ∈ keys m, k ∈ V

/-- Every inner map of `m` lists each of its keys once. -/
def SetsNodup (m : VMap) : Prop :=
  ∀ a s, lookup m a = some s → s.Nodup

/-- What the outer loop of `DirectedAcyclic` keeps true of `m` once the sources
`done`, a prefix of the source order `L`, are processed: they are the keys, and
`a -> b` is recorded exactly when `a` is processed and stands before `b` in `L`. -/
def DAInv (L done : Vertices) (m : VMap) : Prop :=
  keys m = done ∧ SetsNodup m ∧
    ∀ a b, Edge m a b ↔ (a ∈ done ∧ b ∈ L ∧ L.indexOf a < L.indexOf b)

/-- The same while the source `src` that follows `done` is being processed and
the candidates `seen` of its shuffle have been tried. -/
def DAInner (L done : Vertices) (src : Vertex) (seen : Vertices) (m : VMap) : Prop :=
  keys m = done ++ [src] ∧ SetsNodup m ∧
    ∀ a b, Edge m a b ↔ ((a ∈ done ∧ b ∈ L ∧ L.indexOf a < L.indexOf b) ∨
      (a = src ∧ b ∈ seen ∧ L.indexOf src < L.indexOf b))

/-- The source has an answer for every `rand.Perm(l)` of one generator call on
`l` vertices: the values it holds are permutations of `0, ..., l-1` and there
are at least `l + 1` of them. -/
def ServesPerms (l : Nat) (r : Rand) : Prop :=
  (∀ p ∈ r.perms, p.Perm (List.range l)) ∧ l + 1 ≤ r.perms.length

/-- The source has an answer for every `rand.Intn(l)` of one `UndirectedCyclic`
call on `l` vertices: the values it holds are below `l`, and at least `l` of
them are not zero, so each of the `l` rejection loops meets one. -/
def ServesInts (l : Nat) (r : Rand) : Prop :=
  (∀ x ∈ r.ints, x < l) ∧ l ≤ (r.ints.filter (fun x => x ≠ 0)).length

/-- All edges of `g` as pairs, key by key. -/
def edgeList : Graph → List (Vertex × Vertex)
  | [] => []
  | (k, ds) :: rest => ds.map (fun d => (k, d)) ++ edgeList rest

/-- There is a path between `u` and `v` in `g` when the direction of the edges
is ignored (the empty path joins a vertex to itself). -/
def Joined (g : Graph) : Vertex → Vertex → Prop :=
  Relation.ReflTransGen (fun x y => Edge g x y ∨ Edge g y x)

/-! ## ValidVertices: lemmas -/

theorem dupScan_eq_none (vs : Vertices) :
    ∀ seen : List Vertex, dupScan vs seen = none ↔ vs.Nodup ∧ ∀ v ∈ vs, v ∉ seen := by
  induction vs with
  | nil => intro seen; simp [dupScan]
  | cons v rest ih =>
    intro seen
    by_cases hv : v ∈ seen
    · simp [dupScan, hv]
    · simp only [dupScan, hv, if_false, ih, List.nodup_cons, List.mem_cons, not_or]
      constructor
      · rintro ⟨hnd, hall⟩
        refine ⟨⟨fun hmem => (hall v hmem).1 rfl, hnd⟩, ?_⟩
        intro x hx
        rcases hx with rfl | hx
        · exact hv
        · exact (hall x hx).2
      · rintro ⟨⟨hnot, hnd⟩, hall⟩
        refine ⟨hnd, fun x hx => ⟨?_, hall x (Or.inr hx)⟩⟩
        rintro rfl
        exact hnot hx

theorem dupScan_eq_some (vs : Vertices) :
    ∀ (seen : List Vertex) (e : VError), dupScan vs seen = some e →
      ∃ pre v post, vs = pre ++ v :: post ∧ e = VError.repeated v ∧
        (v ∈ seen ∨ v ∈ pre) ∧ pre.Nodup ∧ ∀ x ∈ pre, x ∉ seen := by
  induction vs with
  | nil => intro seen e h; simp [dupScan] at h
  | cons v rest ih =>
    intro seen e h
    by_cases hv : v ∈ seen
    · simp only [dupScan, hv, if_true, Option.some.injEq] at h
      exact ⟨[], v, rest, rfl, h.symm, Or.inl hv, List.nodup_nil, by simp⟩
    · simp only [dupScan, hv, if_false] at h
      obtain ⟨pre, w, post, hrest, he, hw, hnd, hall⟩ := ih (v :: seen) e h
      refine ⟨v :: pre, w, post, by simp [hrest], he, ?_, ?_, ?_⟩
      · rcases hw with hw | hw
        · rcases List.mem_cons.1 hw with rfl | hw
          · exact Or.inr (List.mem_cons_self _ _)
          · exact Or.inl hw
        · exact Or.inr (List.mem_cons_of_mem _ hw)
      · refine List.nodup_cons.2 ⟨?_, hnd⟩
        intro hmem
        exact hall v hmem (List.mem_cons_self _ _)
      · intro x hx
        rcases List.mem_cons.1 hx with rfl | hx
        · exact hv
        · exact fun hs => hall x hx (List.mem_cons_of_mem _ hs)

theorem ValidVertices_eq_none (vs : Vertices) :
    ValidVertices vs = none ↔ 2 ≤ vs.length ∧ vs.Nodup := by
  unfold ValidVertices
  by_cases h : vs.length < 2
  · simp [h]
  · simp only [h, if_false, dupScan_eq_none]
    constructor
    · rintro ⟨hnd, -⟩
      exact ⟨by omega, hnd⟩
    · rintro ⟨-, hnd⟩
      exact ⟨hnd, by simp⟩

theorem nodup_of_length_lt_two (vs : Vertices) (h : vs.length < 2) : vs.Nodup := by
  match vs, h with
  | [], _ => exact List.nodup_nil
  | [_], _ => exact List.nodup_singleton _
  | _ :: _ :: _, h => simp at h; omega

theorem getElem_not_mem_take_of_nodup (l : List Vertex) (hnd : l.Nodup) (j : Nat)
    (hj : j < l.length) : l[j] ∉ l.take j := by
  have hsplit : l = l.take j ++ l[j] :: l.drop (j + 1) := by
    rw [List.getElem_cons_drop l j hj, List.take_append_drop]
  rw [hsplit] at hnd
  have h2 := (List.nodup_append.1 hnd).2.2
  intro hmem
  exact h2 hmem (List.mem_cons_self _ _)

/-! ## Maps: lemmas -/

theorem mem_setAdd (s : List Vertex) (x y : Vertex) : y ∈ setAdd s x ↔ y ∈ s ∨ y = x := by
  unfold setAdd
  by_cases h : x ∈ s
  · simp only [h, if_true]
    constructor
    · exact Or.inl
    · rintro (h1 | rfl)
      · exact h1
      · exact h
  · simp [h]

theorem nodup_setAdd (s : List Vertex) (x : Vertex) (h : s.Nodup) : (setAdd s x).Nodup := by
  unfold setAdd
  by_cases hx : x ∈ s
  · simpa [hx] using h
  · simp only [hx, if_false]
    exact List.Nodup.append h (List.nodup_singleton x) (by simpa using hx)

theorem lookup_append (m m2 : VMap) (x : Vertex) :
    lookup (m ++ m2) x = match lookup m x with
      | some s => some s
      | none => lookup m2 x := by
  induction m with
  | nil => simp [lookup]
  | cons e rest ih =>
    obtain ⟨k, s⟩ := e
    by_cases h : k = x
    · simp [lookup, h]
    · simp [lookup, h, ih]

theorem mem_keys_iff (m : VMap) (x : Vertex) : x ∈ keys m ↔ ∃ s, lookup m x = some s := by
  induction m with
  | nil => simp [keys, lookup]
  | cons e rest ih =>
    obtain ⟨k, s⟩ := e
    by_cases h : k = x
    · simp [keys, lookup, h]
    · have h2 : ¬ x = k := fun hx => h hx.symm
      simp only [keys, List.map_cons, List.mem_cons, h2, false_or, lookup, h, if_false]
      exact ih

theorem not_mem_keys_iff (m : VMap) (x : Vertex) : x ∉ keys m ↔ lookup m x = none := by
  rw [mem_keys_iff]
  cases lookup m x <;> simp

theorem keys_ensureKey (m : VMap) (k : Vertex) :
    keys (ensureKey m k) = if k ∈ keys m then keys m else keys m ++ [k] := by
  unfold ensureKey
  cases h : lookup m k with
  | none =>
    have : k ∉ keys m := (not_mem_keys_iff m k).2 h
    rw [if_neg this]
    simp [keys]
  | some s =>
    have : k ∈ keys m := (mem_keys_iff m k).2 ⟨s, h⟩
    simp [this]

theorem lookup_ensureKey (m : VMap) (k x : Vertex) :
    lookup (ensureKey m k) x =
      if x = k then some ((lookup m k).getD []) else lookup m x := by
  unfold ensureKey
  cases h : lookup m k with
  | some s =>
    by_cases hx : x = k
    · simp [hx, h]
    · simp [hx]
  | none =>
    simp only [lookup_append]
    by_cases hx : x = k
    · subst hx
      simp [h, lookup]
    · have hx2 : ¬ k = x := fun hk => hx hk.symm
      cases lookup m x <;> simp [lookup, hx, hx2]

theorem keys_setTrue (m : VMap) (k v : Vertex) : keys (setTrue m k v) = keys m := by
  induction m with
  | nil => rfl
  | cons e rest ih =>
    obtain ⟨k2, s⟩ := e
    by_cases h : k2 = k
    · simp [setTrue, h, keys]
    · simp only [keys] at ih
      simp [setTrue, h, keys, ih]

theorem lookup_setTrue (m : VMap) (k v x : Vertex) :
    lookup (setTrue m k v) x =
      if x = k then (lookup m k).map (fun s => setAdd s v) else lookup m x := by
  induction m with
  | nil => simp [setTrue, lookup]
  | cons e rest ih =>
    obtain ⟨k2, s⟩ := e
    by_cases h : k2 = k
    · subst h
      by_cases hx : x = k2
      · subst hx
        simp [setTrue, lookup]
      · have hx2 : ¬ k2 = x := fun hk => hx hk.symm
        simp [setTrue, lookup, hx, hx2]
    · by_cases hx : x = k
      · subst hx
        simp [setTrue, lookup, h, ih]
      · by_cases h3 : k2 = x
        · simp [setTrue, lookup, h, h3, hx]
        · simp [setTrue, lookup, h, h3, hx, ih]

theorem keys_toGraph (o : MapOrder) (m : VMap) : keys (toGraph o m) = keys m := by
  simp [keys, toGraph, List.map_map, Function.comp_def]

theorem lookup_toGraph (o : MapOrder) (m : VMap) (x : Vertex) :
    lookup (toGraph o m) x = (lookup m x).map (o.out x) := by
  induction m with
  | nil => simp [toGraph, lookup]
  | cons e rest ih =>
    obtain ⟨k, s⟩ := e
    simp only [toGraph, List.map_cons] at ih ⊢
    by_cases h : k = x
    · subst h
      simp [lookup]
    · simp [lookup, h, ih]

/-! ## Edges: lemmas -/

theorem edge_ensureKey (m : VMap) (k a b : Vertex) : Edge (ensureKey m k) a b ↔ Edge m a b := by
  unfold Edge
  rw [lookup_ensureKey]
  by_cases ha : a = k
  · subst ha
    cases h : lookup m a with
    | none => simp
    | some s => simp
  · simp [ha]

theorem edge_setTrue (m : VMap) (k v a b : Vertex) :
    Edge (setTrue m k v) a b ↔ Edge m a b ∨ (a = k ∧ b = v ∧ k ∈ keys m) := by
  unfold Edge
  rw [lookup_setTrue, mem_keys_iff]
  by_cases ha : a = k
  · subst ha
    cases h : lookup m a with
    | none => simp
    | some s =>
      simp only [if_true, Option.map_some', Option.some.injEq, exists_eq_left', mem_setAdd,
        true_and]
      constructor
      · rintro (h1 | h1)
        · exact Or.inl h1
        · exact Or.inr ⟨h1, s, rfl⟩
      · rintro (h1 | ⟨h1, -⟩)
        · exact Or.inl h1
        · exact Or.inr h1
  · simp [ha]

theorem edge_toGraph (o : MapOrder) (m : VMap) (a b : Vertex) :
    Edge (toGraph o m) a b ↔ Edge m a b := by
  unfold Edge
  rw [lookup_toGraph]
  cases h : lookup m a with
  | none => simp
  | some s =>
    simp only [Option.map_some', Option.some.injEq, exists_eq_left']
    exact (o.out_perm a s).mem_iff

theorem edge_src_mem_keys (m : VMap) (a b : Vertex) (h : Edge m a b) : a ∈ keys m := by
  obtain ⟨s, hs, -⟩ := h
  exact (mem_keys_iff m a).2 ⟨s, hs⟩

/-! ## The randomness source: lemmas -/

theorem randPerm_some (n : Nat) (r r1 : Rand) (ps : List Nat)
    (h : randPerm n r = some (ps, r1)) :
    ps.Perm (List.range n) ∧ r.perms = ps :: r1.perms ∧ r1.ints = r.ints := by
  unfold randPerm at h
  cases hp : r.perms with
  | nil => simp [hp] at h
  | cons p rest =>
    simp only [hp] at h
    by_cases hperm : p.Perm (List.range n)
    · simp only [hperm, if_true, Option.some.injEq, Prod.mk.injEq] at h
      obtain ⟨rfl, rfl⟩ := h
      exact ⟨hperm, rfl, rfl⟩
    · simp [hperm] at h

theorem randPerm_of_cons (n : Nat) (r : Rand) (p : List Nat) (rest : List (List Nat))
    (hr : r.perms = p :: rest) (hp : p.Perm (List.range n)) :
    randPerm n r = some (p, { r with perms := rest }) := by
  simp [randPerm, hr, hp]

theorem shuffle_range (frm : Vertices) : shuffle (List.range frm.length) frm = frm := by
  unfold shuffle
  apply List.ext_getElem
  · simp
  · intro n h1 h2
    simp [List.getD_eq_getElem?_getD, h2]

theorem shuffle_perm (ps : List Nat) (frm : Vertices) (h : ps.Perm (List.range frm.length)) :
    (shuffle ps frm).Perm frm := by
  have h1 : (shuffle ps frm).Perm (shuffle (List.range frm.length) frm) := List.Perm.map _ h
  rwa [shuffle_range] at h1

theorem perm_range_two (ps : List Nat) (h : ps.Perm (List.range 2)) :
    ps = [0, 1] ∨ ps = [1, 0] := by
  have hl := List.Perm.length_eq h
  have hnd := (h.nodup_iff).2 (List.nodup_range 2)
  match ps, hl, h, hnd with
  | [x, y], _, h, hnd =>
    have hx : x ∈ List.range 2 := (h.mem_iff).1 (by simp)
    have hy : y ∈ List.range 2 := (h.mem_iff).1 (by simp)
    simp only [List.mem_range] at hx hy
    simp only [List.nodup_cons, List.mem_singleton, List.not_mem_nil, not_false_eq_true,
      List.nodup_nil, and_true] at hnd
    have : (x = 0 ∧ y = 1) ∨ (x = 1 ∧ y = 0) := by omega
    rcases this with ⟨rfl, rfl⟩ | ⟨rfl, rfl⟩
    · exact Or.inl rfl
    · exact Or.inr rfl

theorem drawPick_some (l : Nat) (ints rest : List Nat) (pick : Nat)
    (h : drawPick l ints = some (pick, rest)) : 0 < pick ∧ pick < l := by
  induction ints with
  | nil => simp [drawPick] at h
  | cons x xs ih =>
    unfold drawPick at h
    by_cases hx : x < l
    · by_cases h0 : x = 0
      · subst h0
        simp only [hx, if_true, ne_eq, not_true_eq_false, if_false] at h
        exact ih h
      · simp only [hx, if_true, ne_eq, h0, not_false_eq_true, Option.some.injEq,
          Prod.mk.injEq] at h
        obtain ⟨rfl, -⟩ := h
        exact ⟨Nat.pos_of_ne_zero h0, hx⟩
    · simp [hx] at h

/-! ## UndirectedCyclic: lemmas -/

theorem ucInv_nil (V : Vertices) : UCInv V [] where
  sym := by
    intro a b h
    obtain ⟨s, hs, -⟩ := h
    simp [lookup] at hs
  noself := by
    intro a h
    obtain ⟨s, hs, -⟩ := h
    simp [lookup] at hs
  keys_nodup := by simp [keys]
  keys_sub := by simp [keys]

theorem nodup_keys_ensureKey (m : VMap) (k : Vertex) (h : (keys m).Nodup) :
    (keys (ensureKey m k)).Nodup := by
  rw [keys_ensureKey]
  by_cases hm : k ∈ keys m
  · simpa [hm] using h
  · rw [if_neg hm]
    exact List.Nodup.append h (List.nodup_singleton k) (by simpa using hm)

theorem ucInv_ensureKey (V : Vertices) (m : VMap) (k : Vertex) (h : UCInv V m) (hk : k ∈ V) :
    UCInv V (ensureKey m k) where
  sym := by
    intro a b hab
    rw [edge_ensureKey] at hab ⊢
    exact h.sym a b hab
  noself := by
    intro a haa
    rw [edge_ensureKey] at haa
    exact h.noself a haa
  keys_nodup := nodup_keys_ensureKey m k h.keys_nodup
  keys_sub := by
    intro x hx
    rw [keys_ensureKey] at hx
    by_cases hm : k ∈ keys m
    · rw [if_pos hm] at hx
      exact h.keys_sub x hx
    · rw [if_neg hm] at hx
      rcases List.mem_append.1 hx with hx | hx
      · exact h.keys_sub x hx
      · rw [List.mem_singleton.1 hx]
        exact hk

theorem mem_keys_ensureKey (m : VMap) (k x : Vertex) :
    x ∈ keys (ensureKey m k) ↔ x ∈ keys m ∨ x = k := by
  rw [keys_ensureKey]
  by_cases hm : k ∈ keys m
  · rw [if_pos hm]
    constructor
    · exact Or.inl
    · rintro (h | rfl)
      · exact h
      · exact hm
  · rw [if_neg hm]
    simp

theorem edge_ucStep (m : VMap) (src dst a b : Vertex) (hsrc : src ∈ keys m) :
    Edge (setTrue (ensureKey (setTrue m src dst) dst) dst src) a b ↔
      Edge m a b ∨ (a = src ∧ b = dst) ∨ (a = dst ∧ b = src) := by
  rw [edge_setTrue, edge_ensureKey, edge_setTrue, mem_keys_ensureKey]
  constructor
  · rintro ((h | ⟨h1, h2, -⟩) | ⟨h1, h2, -⟩)
    · exact Or.inl h
    · exact Or.inr (Or.inl ⟨h1, h2⟩)
    · exact Or.inr (Or.inr ⟨h1, h2⟩)
  · rintro (h | ⟨h1, h2⟩ | ⟨h1, h2⟩)
    · exact Or.inl (Or.inl h)
    · exact Or.inl (Or.inr ⟨h1, h2, hsrc⟩)
    · exact Or.inr ⟨h1, h2, Or.inr rfl⟩

theorem mem_keys_ucStep (m : VMap) (src dst x : Vertex) :
    x ∈ keys (setTrue (ensureKey (setTrue m src dst) dst) dst src) ↔ x ∈ keys m ∨ x = dst := by
  rw [keys_setTrue, mem_keys_ensureKey, keys_setTrue]

theorem ucInv_ucStep (V : Vertices) (m : VMap) (src dst : Vertex) (h : UCInv V m)
    (hsrc : src ∈ keys m) (hdst : dst ∈ V) (hne : dst ≠ src) :
    UCInv V (setTrue (ensureKey (setTrue m src dst) dst) dst src) where
  sym := by
    intro a b hab
    rw [edge_ucStep m src dst _ _ hsrc] at hab ⊢
    rcases hab with hab | ⟨h1, h2⟩ | ⟨h1, h2⟩
    · exact Or.inl (h.sym a b hab)
    · exact Or.inr (Or.inr ⟨h2, h1⟩)
    · exact Or.inr (Or.inl ⟨h2, h1⟩)
  noself := by
    intro a haa
    rw [edge_ucStep m src dst _ _ hsrc] at haa
    rcases haa with haa | ⟨h1, h2⟩ | ⟨h1, h2⟩
    · exact h.noself a haa
    · exact hne (h2.symm.trans h1)
    · exact hne (h1.symm.trans h2)
  keys_nodup := by
    rw [keys_setTrue]
    apply nodup_keys_ensureKey
    rw [keys_setTrue]
    exact h.keys_nodup
  keys_sub := by
    intro x hx
    rw [mem_keys_ucStep] at hx
    rcases hx with hx | rfl
    · exact h.keys_sub x hx
    · exact hdst

theorem ucWalk_inv (V : Vertices) (src : Vertex) (pick : Nat) (rest : Vertices) :
    ∀ (picked : Nat) (m : VMap), UCInv V m → src ∈ keys m → (∀ d ∈ rest, d ∈ V) →
      UCInv V (ucWalk src pick rest picked m) ∧
        ∀ k ∈ keys m, k ∈ keys (ucWalk src pick rest picked m) := by
  induction rest with
  | nil =>
    intro picked m h _ _
    exact ⟨h, fun k hk => hk⟩
  | cons dst rest ih =>
    intro picked m h hsrc hV
    have hdst : dst ∈ V := hV dst (List.mem_cons_self _ _)
    have hrest : ∀ d ∈ rest, d ∈ V := fun d hd => hV d (List.mem_cons_of_mem _ hd)
    by_cases hne : dst = src
    · simp only [ucWalk, hne, ne_eq, not_true_eq_false, if_false]
      by_cases hp : picked = pick
      · simp only [hp, if_true]
        exact ⟨h, fun k hk => hk⟩
      · simp only [hp, if_false]
        exact ih picked m h hsrc hrest
    · have hstep := ucInv_ucStep V m src dst h hsrc hdst hne
      have hkeys : ∀ k ∈ keys m,
          k ∈ keys (setTrue (ensureKey (setTrue m src dst) dst) dst src) :=
        fun k hk => (mem_keys_ucStep m src dst k).2 (Or.inl hk)
      simp only [ucWalk, ne_eq, hne, not_false_eq_true, if_true]
      by_cases hp : picked + 1 = pick
      · simp only [hp, if_true]
        exact ⟨hstep, hkeys⟩
      · simp only [hp, if_false]
        obtain ⟨h1, h2⟩ := ih (picked + 1) _ hstep (hkeys src hsrc) hrest
        exact ⟨h1, fun k hk => h2 k (hkeys k hk)⟩

theorem ucLoop_inv (vsSrc : Vertices) (l : Nat) (hl : l = vsSrc.length) (rest : Vertices) :
    ∀ (m : VMap) (r : Rand) (m2 : VMap) (r2 : Rand), UCInv vsSrc m →
      (∀ s ∈ rest, s ∈ vsSrc) → ucLoop vsSrc l rest m r = some (m2, r2) →
      UCInv vsSrc m2 ∧ (∀ k ∈ keys m, k ∈ keys m2) ∧ ∀ k ∈ rest, k ∈ keys m2 := by
  induction rest with
  | nil =>
    intro m r m2 r2 h _ hrun
    simp only [ucLoop, Option.some.injEq, Prod.mk.injEq] at hrun
    obtain ⟨rfl, -⟩ := hrun
    exact ⟨h, fun k hk => hk, by simp⟩
  | cons src rest ih =>
    intro m r m2 r2 h hV hrun
    have hsrcV : src ∈ vsSrc := hV src (List.mem_cons_self _ _)
    have hrest : ∀ s ∈ rest, s ∈ vsSrc := fun d hd => hV d (List.mem_cons_of_mem _ hd)
    unfold ucLoop at hrun
    cases hp : randPerm l r with
    | none => simp [hp] at hrun
    | some pr =>
      obtain ⟨ps, r1⟩ := pr
      simp only [hp] at hrun
      cases hd : drawPick l r1.ints with
      | none => simp [hd] at hrun
      | some pi =>
        obtain ⟨pick, ints2⟩ := pi
        simp only [hd] at hrun
        have hperm : (shuffle ps vsSrc).Perm vsSrc :=
          shuffle_perm ps vsSrc (hl ▸ (randPerm_some l r r1 ps hp).1)
        have h0 : UCInv vsSrc (ensureKey m src) := ucInv_ensureKey vsSrc m src h hsrcV
        have hsrc0 : src ∈ keys (ensureKey m src) := (mem_keys_ensureKey m src src).2 (Or.inr rfl)
        obtain ⟨h1, h2⟩ := ucWalk_inv vsSrc src pick (shuffle ps vsSrc) 0 _ h0 hsrc0
          (fun d hd => hperm.mem_iff.1 hd)
        obtain ⟨h3, h4, h5⟩ := ih _ _ m2 r2 h1 hrest hrun
        refine ⟨h3, ?_, ?_⟩
        · intro k hk
          exact h4 k (h2 k ((mem_keys_ensureKey m src k).2 (Or.inl hk)))
        · intro k hk
          rcases List.mem_cons.1 hk with rfl | hk
          · exact h4 k (h2 k hsrc0)
          · exact h5 k hk

theorem UndirectedCyclic_some (o : MapOrder) (vs : Vertices) (r : Rand) (res : Result)
    (hv : ValidVertices vs = none) (h : UndirectedCyclic o vs r = some res) :
    ∃ ps r1 m, randPerm vs.length r = some (ps, r1) ∧
      ucLoop (shuffle ps vs) vs.length (shuffle ps vs) [] r1 = some (m, res.rand) ∧
      res.graph = some (toGraph o m) ∧ res.err = none := by
  unfold UndirectedCyclic at h
  simp only [hv] at h
  cases hp : randPerm vs.length r with
  | none => simp [hp] at h
  | some pr =>
    obtain ⟨ps, r1⟩ := pr
    simp only [hp] at h
    cases hloop : ucLoop (shuffle ps vs) vs.length (shuffle ps vs) [] r1 with
    | none => simp [hloop] at h
    | some mr =>
      obtain ⟨m, r2⟩ := mr
      simp only [hloop, Option.some.injEq] at h
      subst h
      exact ⟨ps, r1, m, rfl, hloop, rfl, rfl⟩

theorem UndirectedCyclic_inv (o : MapOrder) (vs : Vertices) (r : Rand) (res : Result)
    (g : Graph) (hv : ValidVertices vs = none) (h : UndirectedCyclic o vs r = some res)
    (hg : res.graph = some g) :
    ∃ m vsSrc, g = toGraph o m ∧ vsSrc.Perm vs ∧ UCInv vsSrc m ∧ ∀ k ∈ vsSrc, k ∈ keys m := by
  obtain ⟨ps, r1, m, hp, hloop, hgraph, -⟩ := UndirectedCyclic_some o vs r res hv h
  have hperm : (shuffle ps vs).Perm vs := shuffle_perm ps vs (randPerm_some _ r r1 ps hp).1
  obtain ⟨h1, -, h3⟩ := ucLoop_inv (shuffle ps vs) vs.length hperm.length_eq.symm
    (shuffle ps vs) [] r1 m res.rand (ucInv_nil _) (fun s hs => hs) hloop
  rw [hgraph] at hg
  exact ⟨m, shuffle ps vs, (Option.some.inj hg).symm, hperm, h1, h3⟩

theorem shuffle_two (ps : List Nat) (x y : Vertex) (h : ps.Perm (List.range 2)) :
    shuffle ps [x, y] = [x, y] ∨ shuffle ps [x, y] = [y, x] := by
  rcases perm_range_two ps h with rfl | rfl
  · exact Or.inl rfl
  · exact Or.inr rfl

theorem ucWalk_two (ps : List Nat) (x y : Vertex) (hxy : x ≠ y) (h : ps.Perm (List.range 2))
    (m : VMap) :
    ucWalk x 1 (shuffle ps [x, y]) 0 m = setTrue (ensureKey (setTrue m x y) y) y x ∧
      ucWalk y 1 (shuffle ps [x, y]) 0 m = setTrue (ensureKey (setTrue m y x) x) x y := by
  have hyx : y ≠ x := fun e => hxy e.symm
  rcases shuffle_two ps x y h with hs | hs <;> rw [hs] <;> simp [ucWalk, hxy, hyx]

theorem ucLoop_two (x y : Vertex) (hxy : x ≠ y) (r r2 : Rand) (m : VMap)
    (h : ucLoop [x, y] 2 [x, y] [] r = some (m, r2)) : m = [(x, [y]), (y, [x])] := by
  have hyx : y ≠ x := fun e => hxy e.symm
  unfold ucLoop at h
  cases hp : randPerm 2 r with
  | none => simp [hp] at h
  | some pr =>
    obtain ⟨ps, r1⟩ := pr
    simp only [hp] at h
    cases hd : drawPick 2 r1.ints with
    | none => simp [hd] at h
    | some pi =>
      obtain ⟨pick, ints2⟩ := pi
      simp only [hd] at h
      have hpick : pick = 1 := by
        have := drawPick_some 2 _ _ _ hd
        omega
      subst hpick
      rw [(ucWalk_two ps x y hxy (randPerm_some 2 r r1 ps hp).1 _).1] at h
      unfold ucLoop at h
      cases hp2 : randPerm 2 { r1 with ints := ints2 } with
      | none => simp [hp2] at h
      | some pr2 =>
        obtain ⟨ps2, r3⟩ := pr2
        simp only [hp2] at h
        cases hd2 : drawPick 2 r3.ints with
        | none => simp [hd2] at h
        | some pi2 =>
          obtain ⟨pick2, ints3⟩ := pi2
          simp only [hd2] at h
          have hpick2 : pick2 = 1 := by
            have := drawPick_some 2 _ _ _ hd2
            omega
          subst hpick2
          rw [(ucWalk_two ps2 x y hxy (randPerm_some 2 _ r3 ps2 hp2).1 _).2] at h
          simp only [ucLoop, Option.some.injEq, Prod.mk.injEq] at h
          rw [← h.1]
          simp [ensureKey, lookup, setTrue, setAdd, hxy, hyx]

theorem drawPick_total (l : Nat) (ints : List Nat) (hvalid : ∀ x ∈ ints, x < l)
    (hsome : 0 < (ints.filter (fun x => x ≠ 0)).length) :
    ∃ pick rest, drawPick l ints = some (pick, rest) ∧ (∀ x ∈ rest, x < l) ∧
      (ints.filter (fun x => x ≠ 0)).length ≤ (rest.filter (fun x => x ≠ 0)).length + 1 := by
  induction ints with
  | nil => simp at hsome
  | cons x xs ih =>
    have hx : x < l := hvalid x (List.mem_cons_self _ _)
    have hxs : ∀ y ∈ xs, y < l := fun y hy => hvalid y (List.mem_cons_of_mem _ hy)
    by_cases h0 : x = 0
    · subst h0
      have hsome2 : 0 < (xs.filter (fun x => x ≠ 0)).length := by simpa using hsome
      obtain ⟨pick, rest, hd, hr, hc⟩ := ih hxs hsome2
      refine ⟨pick, rest, ?_, hr, ?_⟩
      · simp only [drawPick, hx, if_true, ne_eq, not_true_eq_false, if_false]
        exact hd
      · simpa using hc
    · refine ⟨x, xs, ?_, hxs, ?_⟩
      · simp [drawPick, hx, h0]
      · simp [h0]

theorem ucLoop_total (vsSrc : Vertices) (l : Nat) (rest : Vertices) :
    ∀ (m : VMap) (r : Rand), (∀ p ∈ r.perms, p.Perm (List.range l)) →
      rest.length ≤ r.perms.length → (∀ x ∈ r.ints, x < l) →
      rest.length ≤ (r.ints.filter (fun x => x ≠ 0)).length →
      ∃ m2 r2, ucLoop vsSrc l rest m r = some (m2, r2) := by
  induction rest with
  | nil =>
    intro m r _ _ _ _
    exact ⟨m, r, rfl⟩
  | cons src rest ih =>
    intro m r hpv hpl hiv hil
    cases hperms : r.perms with
    | nil => simp [hperms] at hpl
    | cons p ptail =>
      have hp : p.Perm (List.range l) := hpv p (by simp [hperms])
      have hpl2 : rest.length ≤ ptail.length := by
        simp only [hperms, List.length_cons] at hpl
        omega
      obtain ⟨pick, ints2, hd, hiv2, hc⟩ := drawPick_total l r.ints hiv
        (lt_of_lt_of_le (by simp) hil)
      have hil2 : rest.length ≤ (ints2.filter (fun x => x ≠ 0)).length := by
        simp only [List.length_cons] at hil
        omega
      obtain ⟨m2, r2, hrun⟩ := ih
        (ucWalk src pick (shuffle p vsSrc) 0 (ensureKey m src))
        { perms := ptail, ints := ints2 }
        (fun q hq => hpv q (by simp [hperms, hq])) hpl2 hiv2 hil2
      refine ⟨m2, r2, ?_⟩
      unfold ucLoop
      simp only [randPerm_of_cons _ r p ptail hperms hp, hd]
      exact hrun

theorem UndirectedCyclic_total (o : MapOrder) (vs : Vertices) (r : Rand)
    (hv : ValidVertices vs = none) (hp : ServesPerms vs.length r)
    (hi : ServesInts vs.length r) :
    ∃ g r2, UndirectedCyclic o vs r = some ⟨some g, none, r2⟩ := by
  obtain ⟨hpv, hpl⟩ := hp
  obtain ⟨hiv, hil⟩ := hi
  cases hperms : r.perms with
  | nil => simp [hperms] at hpl
  | cons p ptail =>
    have hp : p.Perm (List.range vs.length) := hpv p (by simp [hperms])
    have hl : (shuffle p vs).length = vs.length := (shuffle_perm p vs hp).length_eq
    have hpl2 : (shuffle p vs).length ≤ ptail.length := by
      simp only [hperms, List.length_cons] at hpl
      omega
    obtain ⟨m2, r2, hrun⟩ := ucLoop_total (shuffle p vs) vs.length (shuffle p vs) []
      { r with perms := ptail } (fun q hq => hpv q (by simp [hperms, hq])) hpl2 hiv
      (by rw [hl]; exact hil)
    refine ⟨toGraph o m2, r2, ?_⟩
    unfold UndirectedCyclic
    simp only [hv, randPerm_of_cons _ r p ptail hperms hp, hrun]

/-! ## DirectedAcyclic: lemmas -/

theorem canAddLoop_cons (ord : Nat → List Vertex → List Vertex) (m : VMap) (srcTry : Vertex)
    (f n : Nat) (head : Vertex) (q : Vertices) :
    canAddLoop ord m srcTry (f + 1) n (head :: q) =
      if head = srcTry then some false
      else
        match lookup m head with
        | none => canAddLoop ord m srcTry f (n + 1) q
        | some ks =>
          canAddLoop ord m srcTry f (n + 1) (q ++ (ord n ks).filter (fun k => k ∉ q)) := by
  rw [canAddLoop]

theorem canAddLoop_mem (ord : Nat → List Vertex → List Vertex) (m : VMap) (srcTry : Vertex)
    (pre : Vertices) :
    ∀ (post : Vertices) (fuel n : Nat), pre.length < fuel →
      canAddLoop ord m srcTry fuel n (pre ++ srcTry :: post) = some false := by
  induction pre with
  | nil =>
    intro post fuel n hf
    cases fuel with
    | zero => simp at hf
    | succ f => simp [canAddLoop]
  | cons h pre ih =>
    intro post fuel n hf
    cases fuel with
    | zero => simp at hf
    | succ f =>
      have hf2 : pre.length < f := by simpa using hf
      rw [List.cons_append, canAddLoop_cons]
      by_cases hh : h = srcTry
      · simp [hh]
      · simp only [hh, if_false]
        cases lookup m h with
        | none => exact ih post f (n + 1) hf2
        | some ks =>
          simp only [List.append_assoc, List.cons_append]
          exact ih _ f (n + 1) hf2

theorem canAdd_of_no_key (fuel : Nat) (o : MapOrder) (m : VMap) (src dst : Vertex)
    (hne : src ≠ dst) (hk : lookup m dst = none) (hf : 0 < fuel) :
    canAdd fuel o m src dst = some true := by
  have hne2 : ¬ dst = src := fun e => hne e.symm
  cases fuel with
  | zero => simp at hf
  | succ f => simp [canAdd, hne, canAddLoop, hne2, hk]

theorem canAdd_of_edge_back (fuel : Nat) (o : MapOrder) (m : VMap) (src dst : Vertex)
    (s : List Vertex) (hne : src ≠ dst) (hk : lookup m dst = some s) (hs : src ∈ s)
    (hf : s.length < fuel) : canAdd fuel o m src dst = some false := by
  have hne2 : ¬ dst = src := fun e => hne e.symm
  cases fuel with
  | zero => simp at hf
  | succ f =>
    have hmem : src ∈ o.bfs src dst 0 s := (o.bfs_perm src dst 0 s).mem_iff.2 hs
    obtain ⟨pre, post, hsplit⟩ := List.append_of_mem hmem
    have hlen : pre.length < f := by
      have h1 := (o.bfs_perm src dst 0 s).length_eq
      rw [hsplit] at h1
      simp at h1
      omega
    simp only [canAdd, hne, if_false, canAddLoop, hne2, hk, List.not_mem_nil,
      not_false_eq_true, decide_True, List.filter_true, List.nil_append]
    rw [hsplit]
    exact canAddLoop_mem _ m src pre post f 1 hlen

/-! ### Positions in the source order -/

theorem indexOf_src (done rest : Vertices) (src : Vertex)
    (hnd : (done ++ src :: rest).Nodup) :
    (done ++ src :: rest).indexOf src = done.length := by
  have hnot : src ∉ done := by
    intro h
    exact (List.nodup_append.1 hnd).2.2 h (List.mem_cons_self _ _)
  rw [List.indexOf_append_of_not_mem hnot, List.indexOf_cons_self]
  rfl

theorem indexOf_done (done tail : Vertices) (a : Vertex) (ha : a ∈ done) :
    (done ++ tail).indexOf a < done.length := by
  rw [List.indexOf_append_of_mem ha]
  exact List.indexOf_lt_length.2 ha

theorem mem_done_of_indexOf (done tail : Vertices) (a : Vertex)
    (h : (done ++ tail).indexOf a < done.length) : a ∈ done := by
  by_contra hnot
  rw [List.indexOf_append_of_not_mem hnot] at h
  omega

/-! ### The inner loop -/

theorem setsNodup_setTrue (m : VMap) (k v : Vertex) (h : SetsNodup m) :
    SetsNodup (setTrue m k v) := by
  intro a s hs
  rw [lookup_setTrue] at hs
  by_cases ha : a = k
  · rw [if_pos ha] at hs
    cases hl : lookup m k with
    | none => simp [hl] at hs
    | some t =>
      simp only [hl, Option.map_some', Option.some.injEq] at hs
      rw [← hs]
      exact nodup_setAdd t v (h k t hl)
  · rw [if_neg ha] at hs
    exact h a s hs

theorem setsNodup_ensureKey (m : VMap) (k : Vertex) (h : SetsNodup m) :
    SetsNodup (ensureKey m k) := by
  intro a s hs
  rw [lookup_ensureKey] at hs
  by_cases ha : a = k
  · rw [if_pos ha] at hs
    cases hl : lookup m k with
    | none =>
      simp only [hl, Option.getD_none, Option.some.injEq] at hs
      rw [← hs]
      exact List.nodup_nil
    | some t =>
      simp only [hl, Option.getD_some, Option.some.injEq] at hs
      rw [← hs]
      exact h k t hl
  · rw [if_neg ha] at hs
    exact h a s hs

theorem daInner_spec (fuel : Nat) (o : MapOrder) (L done rest : Vertices) (src : Vertex)
    (hL : L = done ++ src :: rest) (hnd : L.Nodup) (hfuel : L.length < fuel)
    (todo : Vertices) :
    ∀ (seen : Vertices) (m : VMap), (∀ d ∈ seen, d ∈ L) → (∀ d ∈ todo, d ∈ L) →
      DAInner L done src seen m →
      ∃ m2, daInner fuel o src todo m = some m2 ∧ DAInner L done src (seen ++ todo) m2 := by
  have hsrcidx : L.indexOf src = done.length := by
    subst hL
    exact indexOf_src done rest src hnd
  have hsrcL : src ∈ L := by
    subst hL
    simp
  induction todo with
  | nil =>
    intro seen m _ _ hinv
    exact ⟨m, rfl, by simpa using hinv⟩
  | cons dst todo ih =>
    intro seen m hseen htodo hinv
    obtain ⟨hkeys, hsets, hedge⟩ := hinv
    have hdstL : dst ∈ L := htodo dst (List.mem_cons_self _ _)
    have htodo2 : ∀ d ∈ todo, d ∈ L := fun d hd => htodo d (List.mem_cons_of_mem _ hd)
    have hseen2 : ∀ d ∈ seen ++ [dst], d ∈ L := by
      intro d hd
      rcases List.mem_append.1 hd with hd | hd
      · exact hseen d hd
      · rw [List.mem_singleton.1 hd]
        exact hdstL
    have happ : seen ++ dst :: todo = (seen ++ [dst]) ++ todo := by simp
    rw [happ]
    by_cases hds : dst = src
    · have hstep : daInner fuel o src (dst :: todo) m = daInner fuel o src todo m := by
        simp [daInner, hds]
      rw [hstep]
      apply ih (seen ++ [dst]) m hseen2 htodo2
      refine ⟨hkeys, hsets, ?_⟩
      intro a b
      rw [hedge]
      constructor
      · rintro (h | ⟨h1, h2, h3⟩)
        · exact Or.inl h
        · exact Or.inr ⟨h1, List.mem_append_left _ h2, h3⟩
      · rintro (h | ⟨h1, h2, h3⟩)
        · exact Or.inl h
        · rcases List.mem_append.1 h2 with h2 | h2
          · exact Or.inr ⟨h1, h2, h3⟩
          · exfalso
            rw [List.mem_singleton.1 h2, hds] at h3
            exact lt_irrefl _ h3
    · have hsd : src ≠ dst := fun e => hds e.symm
      by_cases hlt : L.indexOf src < L.indexOf dst
      · have hnokey : lookup m dst = none := by
          rw [← not_mem_keys_iff, hkeys]
          intro hmem
          rcases List.mem_append.1 hmem with hmem | hmem
          · have h1 := indexOf_done done (src :: rest) dst hmem
            rw [← hL] at h1
            omega
          · exact hds (List.mem_singleton.1 hmem)
        have hcan := canAdd_of_no_key fuel o m src dst hsd hnokey (by omega)
        have hstep : daInner fuel o src (dst :: todo) m =
            daInner fuel o src todo (setTrue m src dst) := by
          simp [daInner, hds, hcan]
        rw [hstep]
        apply ih (seen ++ [dst]) _ hseen2 htodo2
        refine ⟨by rw [keys_setTrue]; exact hkeys, setsNodup_setTrue m src dst hsets, ?_⟩
        intro a b
        rw [edge_setTrue, hedge, hkeys]
        constructor
        · rintro ((h | ⟨h1, h2, h3⟩) | ⟨h1, h2, -⟩)
          · exact Or.inl h
          · exact Or.inr ⟨h1, List.mem_append_left _ h2, h3⟩
          · refine Or.inr ⟨h1, ?_, ?_⟩
            · rw [h2]
              simp
            · rw [h2]
              exact hlt
        · rintro (h | ⟨h1, h2, h3⟩)
          · exact Or.inl (Or.inl h)
          · rcases List.mem_append.1 h2 with h2 | h2
            · exact Or.inl (Or.inr ⟨h1, h2, h3⟩)
            · exact Or.inr ⟨h1, List.mem_singleton.1 h2, by simp⟩
      · have hidx : L.indexOf dst ≠ L.indexOf src := by
          intro e
          exact hds ((List.indexOf_inj hdstL hsrcL).1 e)
        have hdlt : L.indexOf dst < L.indexOf src := by omega
        have hdone : dst ∈ done := by
          apply mem_done_of_indexOf done (src :: rest) dst
          rw [← hL]
          omega
        obtain ⟨s, hs, hsrc⟩ := (hedge dst src).2 (Or.inl ⟨hdone, hsrcL, hdlt⟩)
        have hsub : s ⊆ L := by
          intro b hb
          rcases (hedge dst b).1 ⟨s, hs, hb⟩ with h | h
          · exact h.2.1
          · exact hseen b h.2.1
        have hlen : s.length < fuel :=
          lt_of_le_of_lt (List.subperm_of_subset (hsets dst s hs) hsub).length_le hfuel
        have hcan := canAdd_of_edge_back fuel o m src dst s hsd hs hsrc hlen
        have hstep : daInner fuel o src (dst :: todo) m = daInner fuel o src todo m := by
          simp [daInner, hds, hcan]
        rw [hstep]
        apply ih (seen ++ [dst]) m hseen2 htodo2
        refine ⟨hkeys, hsets, ?_⟩
        intro a b
        rw [hedge]
        constructor
        · rintro (h | ⟨h1, h2, h3⟩)
          · exact Or.inl h
          · exact Or.inr ⟨h1, List.mem_append_left _ h2, h3⟩
        · rintro (h | ⟨h1, h2, h3⟩)
          · exact Or.inl h
          · rcases List.mem_append.1 h2 with h2 | h2
            · exact Or.inr ⟨h1, h2, h3⟩
            · exfalso
              rw [List.mem_singleton.1 h2] at h3
              exact hlt h3

/-! ### The outer loop -/

theorem daInner_start (L done : Vertices) (src : Vertex) (m : VMap) (h : DAInv L done m)
    (hsrc : src ∉ done) : DAInner L done src [] (ensureKey m src) := by
  obtain ⟨hkeys, hsets, hedge⟩ := h
  refine ⟨?_, setsNodup_ensureKey m src hsets, ?_⟩
  · rw [keys_ensureKey, hkeys, if_neg hsrc]
  · intro a b
    rw [edge_ensureKey, hedge]
    simp

theorem daInner_finish (L done : Vertices) (src : Vertex) (seen : Vertices) (m : VMap)
    (h : DAInner L done src seen m)
    (hseen : ∀ b, b ∈ seen ↔ b ∈ L) : DAInv L (done ++ [src]) m := by
  obtain ⟨hkeys, hsets, hedge⟩ := h
  refine ⟨hkeys, hsets, ?_⟩
  intro a b
  rw [hedge]
  constructor
  · rintro (⟨h1, h2, h3⟩ | ⟨h1, h2, h3⟩)
    · exact ⟨List.mem_append_left _ h1, h2, h3⟩
    · refine ⟨?_, (hseen b).1 h2, ?_⟩
      · rw [h1]
        simp
      · rw [h1]
        exact h3
  · rintro ⟨h1, h2, h3⟩
    rcases List.mem_append.1 h1 with h1 | h1
    · exact Or.inl ⟨h1, h2, h3⟩
    · have ha : a = src := List.mem_singleton.1 h1
      refine Or.inr ⟨ha, (hseen b).2 h2, ?_⟩
      rw [← ha]
      exact h3

theorem daLoop_step (fuel : Nat) (o : MapOrder) (L done rest : Vertices) (src : Vertex)
    (hL : L = done ++ src :: rest) (hnd : L.Nodup) (hfuel : L.length < fuel)
    (m : VMap) (h : DAInv L done m) (ps : List Nat) (hps : ps.Perm (List.range L.length)) :
    ∃ m1, daInner fuel o src (shuffle ps L) (ensureKey m src) = some m1 ∧
      DAInv L (done ++ [src]) m1 := by
  have hperm : (shuffle ps L).Perm L := shuffle_perm ps L hps
  have hsrc : src ∉ done := by
    intro hmem
    rw [hL] at hnd
    exact (List.nodup_append.1 hnd).2.2 hmem (List.mem_cons_self _ _)
  obtain ⟨m1, hrun, hinv⟩ := daInner_spec fuel o L done rest src hL hnd hfuel (shuffle ps L) []
    (ensureKey m src) (by simp) (fun d hd => hperm.mem_iff.1 hd)
    (daInner_start L done src m h hsrc)
  refine ⟨m1, hrun, daInner_finish L done src _ m1 hinv ?_⟩
  intro b
  rw [List.nil_append]
  exact hperm.mem_iff

theorem daLoop_some (fuel : Nat) (o : MapOrder) (L : Vertices) (hnd : L.Nodup)
    (hfuel : L.length < fuel) (todo : Vertices) :
    ∀ (done : Vertices) (m : VMap) (r : Rand) (m2 : VMap) (r2 : Rand), L = done ++ todo →
      DAInv L done m → daLoop fuel o L L.length todo m r = some (m2, r2) → DAInv L L m2 := by
  induction todo with
  | nil =>
    intro done m r m2 r2 hL h hrun
    simp only [daLoop, Option.some.injEq, Prod.mk.injEq] at hrun
    rw [List.append_nil] at hL
    rw [← hrun.1, hL]
    rw [hL] at h
    exact h
  | cons src rest ih =>
    intro done m r m2 r2 hL h hrun
    unfold daLoop at hrun
    cases hp : randPerm L.length r with
    | none => simp [hp] at hrun
    | some pr =>
      obtain ⟨ps, r1⟩ := pr
      simp only [hp] at hrun
      obtain ⟨m1, hinner, hinv⟩ := daLoop_step fuel o L done rest src hL hnd hfuel m h ps
        (randPerm_some _ r r1 ps hp).1
      simp only [hinner] at hrun
      exact ih (done ++ [src]) m1 r1 m2 r2 (by simp [hL]) hinv hrun

theorem daLoop_total (fuel : Nat) (o : MapOrder) (L : Vertices) (hnd : L.Nodup)
    (hfuel : L.length < fuel) (todo : Vertices) :
    ∀ (done : Vertices) (m : VMap) (r : Rand), L = done ++ todo → DAInv L done m →
      (∀ p ∈ r.perms, p.Perm (List.range L.length)) → todo.length ≤ r.perms.length →
      ∃ m2 r2, daLoop fuel o L L.length todo m r = some (m2, r2) := by
  induction todo with
  | nil =>
    intro done m r _ _ _ _
    exact ⟨m, r, rfl⟩
  | cons src rest ih =>
    intro done m r hL h hvalid hlen
    cases hperms : r.perms with
    | nil => simp [hperms] at hlen
    | cons p ptail =>
      have hp : p.Perm (List.range L.length) := hvalid p (by simp [hperms])
      obtain ⟨m1, hinner, hinv⟩ := daLoop_step fuel o L done rest src hL hnd hfuel m h p hp
      have hlen2 : rest.length ≤ ptail.length := by
        simp only [hperms, List.length_cons] at hlen
        omega
      obtain ⟨m2, r2, hrun⟩ := ih (done ++ [src]) m1 { r with perms := ptail } (by simp [hL])
        hinv (fun q hq => hvalid q (by simp [hperms, hq])) hlen2
      refine ⟨m2, r2, ?_⟩
      unfold daLoop
      simp only [randPerm_of_cons _ r p ptail hperms hp, hinner]
      exact hrun

/-! ### More fuel changes nothing -/

theorem canAddLoop_mono (ord : Nat → List Vertex → List Vertex) (m : VMap) (srcTry : Vertex)
    (f : Nat) :
    ∀ (n : Nat) (q : Vertices) (b : Bool) (f2 : Nat), f ≤ f2 →
      canAddLoop ord m srcTry f n q = some b → canAddLoop ord m srcTry f2 n q = some b := by
  induction f with
  | zero =>
    intro n q b f2 _ h
    cases q with
    | nil =>
      simp only [canAddLoop] at h ⊢
      exact h
    | cons head q => simp [canAddLoop] at h
  | succ f ih =>
    intro n q b f2 hle h
    cases q with
    | nil =>
      simp only [canAddLoop] at h ⊢
      exact h
    | cons head q =>
      obtain ⟨f3, rfl⟩ : ∃ f3, f2 = f3 + 1 := ⟨f2 - 1, by omega⟩
      have hle2 : f ≤ f3 := by omega
      rw [canAddLoop_cons] at h ⊢
      by_cases hh : head = srcTry
      · simpa [hh] using h
      · simp only [hh, if_false] at h ⊢
        cases hl : lookup m head with
        | none =>
          simp only [hl] at h ⊢
          exact ih _ _ b f3 hle2 h
        | some ks =>
          simp only [hl] at h ⊢
          exact ih _ _ b f3 hle2 h

theorem canAdd_mono (f f2 : Nat) (o : MapOrder) (m : VMap) (src dst : Vertex) (b : Bool)
    (hle : f ≤ f2) (h : canAdd f o m src dst = some b) : canAdd f2 o m src dst = some b := by
  unfold canAdd at h ⊢
  by_cases hsd : src = dst
  · simpa [hsd] using h
  · simp only [hsd, if_false] at h ⊢
    exact canAddLoop_mono _ m src f 0 [dst] b f2 hle h

theorem daInner_mono (f f2 : Nat) (o : MapOrder) (src : Vertex) (hle : f ≤ f2)
    (todo : Vertices) :
    ∀ (m m2 : VMap), daInner f o src todo m = some m2 → daInner f2 o src todo m = some m2 := by
  induction todo with
  | nil =>
    intro m m2 h
    simpa [daInner] using h
  | cons dst todo ih =>
    intro m m2 h
    unfold daInner at h ⊢
    by_cases hds : dst = src
    · simp only [hds, ne_eq, not_true_eq_false, if_false] at h ⊢
      exact ih m m2 h
    · simp only [ne_eq, hds, not_false_eq_true, if_true] at h ⊢
      cases hc : canAdd f o m src dst with
      | none => simp [hc] at h
      | some b =>
        rw [canAdd_mono f f2 o m src dst b hle hc]
        simp only [hc] at h
        cases b with
        | true => exact ih _ m2 h
        | false => exact ih _ m2 h

theorem daLoop_mono (f f2 : Nat) (o : MapOrder) (L : Vertices) (l : Nat) (hle : f ≤ f2)
    (todo : Vertices) :
    ∀ (m : VMap) (r : Rand) (out : VMap × Rand),
      daLoop f o L l todo m r = some out → daLoop f2 o L l todo m r = some out := by
  induction todo with
  | nil =>
    intro m r out h
    simpa [daLoop] using h
  | cons src rest ih =>
    intro m r out h
    unfold daLoop at h ⊢
    cases hp : randPerm l r with
    | none => simp [hp] at h
    | some pr =>
      obtain ⟨ps, r1⟩ := pr
      simp only [hp] at h ⊢
      cases hi : daInner f o src (shuffle ps L) (ensureKey m src) with
      | none => simp [hi] at h
      | some m1 =>
        rw [daInner_mono f f2 o src hle _ _ m1 hi]
        simp only [hi] at h
        exact ih m1 r1 out h

/-! ### The whole function -/

theorem daInv_nil (L : Vertices) : DAInv L [] [] := by
  refine ⟨rfl, ?_, ?_⟩
  · intro a s hs
    simp [lookup] at hs
  · intro a b
    simp [Edge, lookup]

theorem DirectedAcyclic_some (fuel : Nat) (o : MapOrder) (vs : Vertices) (r : Rand)
    (res : Result) (hv : ValidVertices vs = none) (h : DirectedAcyclic fuel o vs r = some res) :
    ∃ ps r1 m, randPerm vs.length r = some (ps, r1) ∧
      daLoop fuel o (shuffle ps vs) vs.length (shuffle ps vs) [] r1 = some (m, res.rand) ∧
      res.graph = some (toGraph o m) ∧ res.err = none := by
  unfold DirectedAcyclic at h
  simp only [hv] at h
  cases hp : randPerm vs.length r with
  | none => simp [hp] at h
  | some pr =>
    obtain ⟨ps, r1⟩ := pr
    simp only [hp] at h
    cases hloop : daLoop fuel o (shuffle ps vs) vs.length (shuffle ps vs) [] r1 with
    | none => simp [hloop] at h
    | some mr =>
      obtain ⟨m, r2⟩ := mr
      simp only [hloop, Option.some.injEq] at h
      subst h
      exact ⟨ps, r1, m, rfl, hloop, rfl, rfl⟩

theorem DirectedAcyclic_inv (fuel : Nat) (o : MapOrder) (vs : Vertices) (r : Rand)
    (res : Result) (g : Graph) (hv : ValidVertices vs = none)
    (h : DirectedAcyclic fuel o vs r = some res) (hg : res.graph = some g) :
    ∃ m L, g = toGraph o m ∧ L.Perm vs ∧ L.Nodup ∧ DAInv L L m ∧
      ∃ ps, ps.Perm (List.range vs.length) ∧ L = shuffle ps vs := by
  obtain ⟨ps, r1, m, hp, hloop, hgraph, -⟩ := DirectedAcyclic_some fuel o vs r res hv h
  have hps := (randPerm_some _ r r1 ps hp).1
  have hperm : (shuffle ps vs).Perm vs := shuffle_perm ps vs hps
  have hnd : (shuffle ps vs).Nodup := hperm.nodup_iff.2 ((ValidVertices_eq_none vs).1 hv).2
  have hlen : (shuffle ps vs).length = vs.length := hperm.length_eq
  rw [← hlen] at hloop
  have hloop2 := daLoop_mono fuel (max fuel ((shuffle ps vs).length + 1)) o (shuffle ps vs)
    (shuffle ps vs).length (le_max_left _ _) (shuffle ps vs) [] r1 _ hloop
  have hinv := daLoop_some (max fuel ((shuffle ps vs).length + 1)) o (shuffle ps vs) hnd
    (lt_of_lt_of_le (Nat.lt_succ_self _) (le_max_right _ _))
    (shuffle ps vs) [] [] r1 m res.rand rfl (daInv_nil _) hloop2
  rw [hgraph] at hg
  exact ⟨m, shuffle ps vs, (Option.some.inj hg).symm, hperm, hnd, hinv, ps, hps, rfl⟩

theorem DirectedAcyclic_total (fuel : Nat) (o : MapOrder) (vs : Vertices) (r : Rand)
    (hv : ValidVertices vs = none) (hfuel : vs.length < fuel)
    (hp : ServesPerms vs.length r) :
    ∃ g r2, DirectedAcyclic fuel o vs r = some ⟨some g, none, r2⟩ := by
  obtain ⟨hvalid, hlen⟩ := hp
  cases hperms : r.perms with
  | nil => simp [hperms] at hlen
  | cons p ptail =>
    have hp : p.Perm (List.range vs.length) := hvalid p (by simp [hperms])
    have hperm : (shuffle p vs).Perm vs := shuffle_perm p vs hp
    have hnd : (shuffle p vs).Nodup := hperm.nodup_iff.2 ((ValidVertices_eq_none vs).1 hv).2
    have hl : (shuffle p vs).length = vs.length := hperm.length_eq
    have hlen2 : (shuffle p vs).length ≤ ptail.length := by
      simp only [hperms, List.length_cons] at hlen
      omega
    obtain ⟨m2, r2, hrun⟩ := daLoop_total fuel o (shuffle p vs) hnd (by omega) (shuffle p vs) []
      [] { r with perms := ptail } rfl (daInv_nil _)
      (fun q hq => by
        rw [hl]
        exact hvalid q (by simp [hperms]; exact Or.inr hq)) hlen2
    rw [hl] at hrun
    refine ⟨toGraph o m2, r2, ?_⟩
    unfold DirectedAcyclic
    simp only [hv, randPerm_of_cons _ r p ptail hperms hp, hrun]

theorem reaches_indexOf_lt (g : Graph) (L : Vertices)
    (hE : ∀ a b, Edge g a b → L.indexOf a < L.indexOf b) (a b : Vertex) (h : Reaches g a b) :
    L.indexOf a < L.indexOf b := by
  induction h with
  | single h => exact hE _ _ h
  | tail _ h ih => exact lt_trans ih (hE _ _ h)

theorem daInv_pair (x y : Vertex) (hxy : x ≠ y) (m : VMap) (h : DAInv [x, y] [x, y] m) :
    m = [(x, [y]), (y, [])] := by
  obtain ⟨hkeys, hsets, hedge⟩ := h
  have hyx : y ≠ x := fun e => hxy e.symm
  have hix : List.indexOf x [x, y] = 0 := by simp
  have hiy : List.indexOf y [x, y] = 1 := by simp [List.indexOf_cons, hxy]
  match m, hkeys, hsets, hedge with
  | [(k1, s1), (k2, s2)], hkeys, hsets, hedge =>
    simp only [keys, List.map_cons, List.map_nil, List.cons.injEq, and_true] at hkeys
    obtain ⟨rfl, rfl⟩ := hkeys
    have hl1 : lookup [(k1, s1), (k2, s2)] k1 = some s1 := by simp [lookup]
    have hl2 : lookup [(k1, s1), (k2, s2)] k2 = some s2 := by simp [lookup, hxy]
    have hs1 : s1 = [k2] := by
      apply List.perm_singleton.1
      apply (List.perm_ext_iff_of_nodup (hsets k1 s1 hl1) (List.nodup_singleton k2)).2
      intro b
      constructor
      · intro hb
        obtain ⟨-, hbL, hlt⟩ := (hedge k1 b).1 ⟨s1, hl1, hb⟩
        rcases List.mem_cons.1 hbL with rfl | hbL
        · omega
        · exact hbL
      · intro hb
        rw [List.mem_singleton.1 hb]
        obtain ⟨t, ht, hmem⟩ := (hedge k1 k2).2 ⟨by simp, by simp, by omega⟩
        rw [hl1] at ht
        rw [Option.some.inj ht]
        exact hmem
    have hs2 : s2 = [] := by
      apply List.eq_nil_iff_forall_not_mem.2
      intro b hb
      obtain ⟨-, hbL, hlt⟩ := (hedge k2 b).1 ⟨s2, hl2, hb⟩
      rcases List.mem_cons.1 hbL with rfl | hbL
      · omega
      · rw [List.mem_singleton.1 hbL] at hlt
        omega
    rw [hs1, hs2]

/-! ## UndirectedCyclic: what one walk records -/

theorem ucWalk_edges (src : Vertex) (pick : Nat) (rest : Vertices) :
    ∀ (picked : Nat) (m : VMap), src ∈ keys m → picked < pick →
      ∀ a b, Edge (ucWalk src pick rest picked m) a b ↔
        Edge m a b ∨
          (a = src ∧ b ∈ (rest.filter (fun d => d ≠ src)).take (pick - picked)) ∨
          (a ∈ (rest.filter (fun d => d ≠ src)).take (pick - picked) ∧ b = src) := by
  induction rest with
  | nil =>
    intro picked m _ _ a b
    simp [ucWalk]
  | cons dst rest ih =>
    intro picked m hsrc hlt a b
    by_cases hds : dst = src
    · have hstep : ucWalk src pick (dst :: rest) picked m = ucWalk src pick rest picked m := by
        have hne : ¬ picked = pick := by omega
        simp [ucWalk, hds, hne]
      rw [hstep, ih picked m hsrc hlt a b]
      simp [hds]
    · have hfil : (dst :: rest).filter (fun d => d ≠ src) =
          dst :: rest.filter (fun d => d ≠ src) := by
        simp [hds]
      obtain ⟨k, hk⟩ : ∃ k, pick - picked = k + 1 := ⟨pick - picked - 1, by omega⟩
      rw [hfil, hk, List.take_succ_cons]
      by_cases hp : picked + 1 = pick
      · have hk0 : k = 0 := by omega
        have hstep : ucWalk src pick (dst :: rest) picked m =
            setTrue (ensureKey (setTrue m src dst) dst) dst src := by
          simp [ucWalk, hds, hp]
        rw [hstep, edge_ucStep m src dst a b hsrc, hk0]
        simp
      · have hstep : ucWalk src pick (dst :: rest) picked m =
            ucWalk src pick rest (picked + 1)
              (setTrue (ensureKey (setTrue m src dst) dst) dst src) := by
          simp [ucWalk, hds, hp]
        have hsrc1 : src ∈ keys (setTrue (ensureKey (setTrue m src dst) dst) dst src) :=
          (mem_keys_ucStep m src dst src).2 (Or.inl hsrc)
        have hk2 : pick - (picked + 1) = k := by omega
        rw [hstep, ih (picked + 1) _ hsrc1 (by omega) a b, edge_ucStep m src dst a b hsrc, hk2]
        simp only [List.mem_cons]
        constructor
        · rintro ((h | h | h) | h | h)
          · exact Or.inl h
          · exact Or.inr (Or.inl ⟨h.1, Or.inl h.2⟩)
          · exact Or.inr (Or.inr ⟨Or.inl h.1, h.2⟩)
          · exact Or.inr (Or.inl ⟨h.1, Or.inr h.2⟩)
          · exact Or.inr (Or.inr ⟨Or.inr h.1, h.2⟩)
        · rintro (h | ⟨h1, h2 | h2⟩ | ⟨h1 | h1, h2⟩)
          · exact Or.inl (Or.inl h)
          · exact Or.inl (Or.inr (Or.inl ⟨h1, h2⟩))
          · exact Or.inr (Or.inl ⟨h1, h2⟩)
          · exact Or.inl (Or.inr (Or.inr ⟨h1, h2⟩))
          · exact Or.inr (Or.inr ⟨h1, h2⟩)

theorem ucWalk_edge_mono (src : Vertex) (pick : Nat) (rest : Vertices) :
    ∀ (picked : Nat) (m : VMap) (a b : Vertex), src ∈ keys m → Edge m a b →
      Edge (ucWalk src pick rest picked m) a b := by
  induction rest with
  | nil =>
    intro picked m a b _ h
    exact h
  | cons dst rest ih =>
    intro picked m a b hsrc h
    have hstepE : Edge (setTrue (ensureKey (setTrue m src dst) dst) dst src) a b :=
      (edge_ucStep m src dst a b hsrc).2 (Or.inl h)
    have hsrc1 : src ∈ keys (setTrue (ensureKey (setTrue m src dst) dst) dst src) :=
      (mem_keys_ucStep m src dst src).2 (Or.inl hsrc)
    by_cases hds : dst = src
    · by_cases hp : picked = pick
      · simpa [ucWalk, hds, hp] using h
      · simp only [ucWalk, hds, ne_eq, not_true_eq_false, if_false, hp]
        exact ih picked m a b hsrc h
    · by_cases hp : picked + 1 = pick
      · simpa [ucWalk, hds, hp] using hstepE
      · simp only [ucWalk, ne_eq, hds, not_false_eq_true, if_true, hp, if_false]
        exact ih (picked + 1) _ a b hsrc1 hstepE

theorem ucLoop_edge_mono (vsSrc : Vertices) (l : Nat) (rest : Vertices) :
    ∀ (m : VMap) (r : Rand) (m2 : VMap) (r2 : Rand) (a b : Vertex),
      ucLoop vsSrc l rest m r = some (m2, r2) → Edge m a b → Edge m2 a b := by
  induction rest with
  | nil =>
    intro m r m2 r2 a b hrun h
    simp only [ucLoop, Option.some.injEq, Prod.mk.injEq] at hrun
    rw [← hrun.1]
    exact h
  | cons src rest ih =>
    intro m r m2 r2 a b hrun h
    unfold ucLoop at hrun
    cases hp : randPerm l r with
    | none => simp [hp] at hrun
    | some pr =>
      obtain ⟨ps, r1⟩ := pr
      simp only [hp] at hrun
      cases hd : drawPick l r1.ints with
      | none => simp [hd] at hrun
      | some pi =>
        obtain ⟨pick, ints2⟩ := pi
        simp only [hd] at hrun
        apply ih _ _ m2 r2 a b hrun
        apply ucWalk_edge_mono
        · exact (mem_keys_ensureKey m src src).2 (Or.inr rfl)
        · exact (edge_ensureKey m src a b).2 h

theorem length_filter_ne (L : Vertices) (src : Vertex) (hnd : L.Nodup) (hsrc : src ∈ L) :
    (L.filter (fun d => d ≠ src)).length = L.length - 1 := by
  have hf : (fun d : Vertex => decide (d ≠ src)) = (fun x => x != src) := by
    funext x
    by_cases hx : x = src <;> simp [hx]
  rw [hf, ← List.Nodup.erase_eq_filter hnd src, List.length_erase_of_mem hsrc]

theorem ucLoop_has_edge (vsSrc : Vertices) (l : Nat) (hl : l = vsSrc.length)
    (hnd : vsSrc.Nodup) (h2 : 2 ≤ l) (rest : Vertices) :
    ∀ (m : VMap) (r : Rand) (m2 : VMap) (r2 : Rand),
      (∀ s ∈ rest, s ∈ vsSrc) → ucLoop vsSrc l rest m r = some (m2, r2) →
      ∀ s ∈ rest, ∃ c, Edge m2 s c := by
  induction rest with
  | nil =>
    intro m r m2 r2 _ _ s hs
    simp at hs
  | cons src rest ih =>
    intro m r m2 r2 hV hrun s hs
    have hsrcV : src ∈ vsSrc := hV src (List.mem_cons_self _ _)
    have hrest : ∀ s ∈ rest, s ∈ vsSrc := fun d hd => hV d (List.mem_cons_of_mem _ hd)
    have hrun0 := hrun
    unfold ucLoop at hrun
    cases hp : randPerm l r with
    | none => simp [hp] at hrun
    | some pr =>
      obtain ⟨ps, r1⟩ := pr
      simp only [hp] at hrun
      cases hd : drawPick l r1.ints with
      | none => simp [hd] at hrun
      | some pi =>
        obtain ⟨pick, ints2⟩ := pi
        simp only [hd] at hrun
        rcases List.mem_cons.1 hs with rfl | hs
        · have hperm : (shuffle ps vsSrc).Perm vsSrc :=
            shuffle_perm ps vsSrc (hl ▸ (randPerm_some l r r1 ps hp).1)
          have hpick := drawPick_some l _ _ _ hd
          have hlen := length_filter_ne (shuffle ps vsSrc) s (hperm.nodup_iff.2 hnd)
            (hperm.mem_iff.2 hsrcV)
          rw [hperm.length_eq, ← hl] at hlen
          have hne : (shuffle ps vsSrc).filter (fun d => d ≠ s) ≠ [] := by
            intro he
            rw [he] at hlen
            simp at hlen
            omega
          obtain ⟨c, cs, hc⟩ := List.exists_cons_of_ne_nil hne
          obtain ⟨k, hk⟩ : ∃ k, pick - 0 = k + 1 := ⟨pick - 1, by omega⟩
          have hsrc0 : s ∈ keys (ensureKey m s) := (mem_keys_ensureKey m s s).2 (Or.inr rfl)
          have hedge : Edge (ucWalk s pick (shuffle ps vsSrc) 0 (ensureKey m s)) s c := by
            rw [ucWalk_edges s pick (shuffle ps vsSrc) 0 _ hsrc0 hpick.1, hc, hk]
            exact Or.inr (Or.inl ⟨rfl, by simp⟩)
          exact ⟨c, ucLoop_edge_mono vsSrc l rest _ _ m2 r2 s c hrun hedge⟩
        · exact ih _ _ m2 r2 hrest hrun s hs

/-! ## Paths: lemmas -/

theorem edge_mem_edgeList (g : Graph) (a b : Vertex) (h : Edge g a b) :
    (a, b) ∈ edgeList g := by
  obtain ⟨ds, hds, hb⟩ := h
  induction g with
  | nil => simp [lookup] at hds
  | cons e rest ih =>
    obtain ⟨k, s⟩ := e
    simp only [edgeList, List.mem_append, List.mem_map]
    by_cases hk : k = a
    · subst hk
      simp only [lookup, if_true, Option.some.injEq] at hds
      subst hds
      exact Or.inl ⟨b, hb, rfl⟩
    · simp only [lookup, hk, if_false] at hds
      exact Or.inr (ih hds)

theorem joined_closed (g : Graph) (S : List Vertex)
    (hS : ∀ p ∈ edgeList g, (p.1 ∈ S ↔ p.2 ∈ S)) (x y : Vertex) (h : Joined g x y) :
    x ∈ S → y ∈ S := by
  induction h with
  | refl => exact fun hx => hx
  | tail _ hstep ih =>
    intro hx
    rcases hstep with hstep | hstep
    · exact (hS _ (edge_mem_edgeList g _ _ hstep)).1 (ih hx)
    · exact (hS _ (edge_mem_edgeList g _ _ hstep)).2 (ih hx)

theorem DirectedAcyclic_adjacent (fuel : Nat) (o : MapOrder) (vs : Vertices) (r : Rand)
    (res : Result) (g : Graph) (hv : ValidVertices vs = none)
    (h : DirectedAcyclic fuel o vs r = some res) (hg : res.graph = some g)
    (u v : Vertex) (hu : u ∈ vs) (hw : v ∈ vs) (huv : u ≠ v) : Edge g u v ∨ Edge g v u := by
  obtain ⟨m, L, rfl, hperm, -, hinv, -⟩ := DirectedAcyclic_inv fuel o vs r res g hv h hg
  have huL : u ∈ L := hperm.mem_iff.2 hu
  have hvL : v ∈ L := hperm.mem_iff.2 hw
  have hne : L.indexOf u ≠ L.indexOf v := fun e => huv ((List.indexOf_inj huL hvL).1 e)
  rw [edge_toGraph, edge_toGraph, hinv.2.2 u v, hinv.2.2 v u]
  rcases Nat.lt_or_gt_of_ne hne with hlt | hlt
  · exact Or.inl ⟨huL, hvL, hlt⟩
  · exact Or.inr ⟨hvL, huL, hlt⟩

/-! ## DirectedAcyclic: the shape of the result -/

theorem mem_drop_succ_iff (L : Vertices) (hnd : L.Nodup) (i : Nat) (hi : i < L.length)
    (v : Vertex) : v ∈ L.drop (i + 1) ↔ v ∈ L ∧ i < L.indexOf v := by
  have hlen : (L.take (i + 1)).length = i + 1 := by
    rw [List.length_take]
    omega
  have hnd2 : (L.take (i + 1) ++ L.drop (i + 1)).Nodup := by
    rw [List.take_append_drop]
    exact hnd
  constructor
  · intro hv
    have hnot : v ∉ L.take (i + 1) := fun ht => (List.nodup_append.1 hnd2).2.2 ht hv
    have hidx : List.indexOf v (L.take (i + 1) ++ L.drop (i + 1)) =
        (L.take (i + 1)).length + List.indexOf v (L.drop (i + 1)) :=
      List.indexOf_append_of_not_mem hnot
    rw [List.take_append_drop, hlen] at hidx
    exact ⟨List.mem_of_mem_drop hv, by omega⟩
  · rintro ⟨hv, hlt⟩
    by_contra hnot
    have hv2 : v ∈ L.take (i + 1) ++ L.drop (i + 1) := by
      rw [List.take_append_drop]
      exact hv
    rcases List.mem_append.1 hv2 with ht | hd
    · have hidx := indexOf_done (L.take (i + 1)) (L.drop (i + 1)) v ht
      rw [List.take_append_drop, hlen] at hidx
      omega
    · exact hnot hd

theorem lookup_getElem (m : VMap) (hnd : (keys m).Nodup) :
    ∀ (i : Nat) (hi : i < m.length), lookup m m[i].1 = some m[i].2 := by
  induction m with
  | nil =>
    intro i hi
    simp at hi
  | cons e rest ih =>
    intro i hi
    obtain ⟨k, s⟩ := e
    have hnd2 : k ∉ keys rest ∧ (keys rest).Nodup := by
      simpa [keys] using hnd
    cases i with
    | zero => simp [lookup]
    | succ j =>
      have hj : j < rest.length := by simpa using hi
      have hmem : rest[j].1 ∈ keys rest := by
        simp only [keys, List.mem_map]
        exact ⟨rest[j], List.getElem_mem _, rfl⟩
      have hne : ¬ k = rest[j].1 := by
        intro e
        rw [← e] at hmem
        exact hnd2.1 hmem
      simp only [List.getElem_cons_succ, lookup, hne, if_false]
      exact ih hnd2.2 j hj

theorem daInv_outdegree (L : Vertices) (m : VMap) (hnd : L.Nodup) (hinv : DAInv L L m)
    (i : Nat) (hi : i < L.length) :
    ∃ s, lookup m L[i] = some s ∧ s.Perm (L.drop (i + 1)) := by
  obtain ⟨hkeys, hsets, hedge⟩ := hinv
  have hmemL : L[i] ∈ L := List.getElem_mem _
  have hmemK : L[i] ∈ keys m := by
    rw [hkeys]
    exact hmemL
  obtain ⟨s, hs⟩ := (mem_keys_iff m L[i]).1 hmemK
  refine ⟨s, hs, ?_⟩
  apply (List.perm_ext_iff_of_nodup (hsets _ s hs) (hnd.sublist (List.drop_sublist _ _))).2
  intro b
  rw [mem_drop_succ_iff L hnd i hi b]
  constructor
  · intro hb
    have h1 := (hedge L[i] b).1 ⟨s, hs, hb⟩
    rw [List.indexOf_getElem hnd i hi] at h1
    exact ⟨h1.2.1, h1.2.2⟩
  · rintro ⟨hb, hlt⟩
    have h1 : L.indexOf L[i] < L.indexOf b := by
      rw [List.indexOf_getElem hnd i hi]
      exact hlt
    obtain ⟨t, ht, hbt⟩ := (hedge L[i] b).2 ⟨hmemL, hb, h1⟩
    rw [hs] at ht
    rw [Option.some.inj ht]
    exact hbt

theorem sum_range_mul_two (n : Nat) : (List.range n).sum * 2 = n * (n - 1) := by
  induction n with
  | zero => rfl
  | succ k ih =>
    rw [List.range_succ, List.sum_append, add_mul, ih]
    cases k with
    | zero => simp
    | succ j =>
      simp
      ring

theorem sum_countdown (n : Nat) :
    ((List.range n).map (fun i => n - 1 - i)).sum = n * (n - 1) / 2 := by
  have h1 : (List.range n).map (fun i => n - 1 - i) = (List.range n).reverse := by
    have h0 := List.reverse_range' 0 n
    rw [← List.range_eq_range'] at h0
    rw [h0]
    simp
  rw [h1, List.sum_reverse]
  have h2 := sum_range_mul_two n
  omega

theorem length_edgeList (g : Graph) :
    (edgeList g).length = (g.map (fun e => e.2.length)).sum := by
  induction g with
  | nil => rfl
  | cons e rest ih =>
    obtain ⟨k, s⟩ := e
    simp [edgeList, ih]

theorem daInv_degrees (L : Vertices) (m : VMap) (hnd : L.Nodup) (hinv : DAInv L L m) :
    m.map (fun e => e.2.length) = (List.range L.length).map (fun i => L.length - 1 - i) := by
  have hkeys : keys m = L := hinv.1
  have hlen : m.length = L.length := by
    rw [← hkeys]
    simp [keys]
  apply List.ext_getElem
  · simp [hlen]
  · intro i h1 h2
    have hi : i < m.length := by simpa using h1
    have hiL : i < L.length := hlen ▸ hi
    have hkey : m[i].1 = L[i] := by
      have hik : i < (keys m).length := by simpa [keys] using hi
      have h3 : (keys m)[i] = m[i].1 := by simp [keys]
      rw [← h3]
      exact List.getElem_of_eq hkeys _
    obtain ⟨s, hs, hperm⟩ := daInv_outdegree L m hnd hinv i hiL
    have hl := lookup_getElem m (hkeys ▸ hnd) i hi
    rw [hkey, hs] at hl
    simp only [List.getElem_map, List.getElem_range]
    rw [← Option.some.inj hl, hperm.length_eq, List.length_drop]
    omega

theorem degrees_toGraph (o : MapOrder) (m : VMap) :
    (toGraph o m).map (fun e => e.2.length) = m.map (fun e => e.2.length) := by
  simp only [toGraph, List.map_map]
  apply List.map_congr_left
  intro e _
  exact (o.out_perm e.1 e.2).length_eq

theorem DirectedAcyclic_inv_first (fuel : Nat) (o : MapOrder) (vs : Vertices) (r : Rand)
    (res : Result) (g : Graph) (hv : ValidVertices vs = none)
    (h : DirectedAcyclic fuel o vs r = some res) (hg : res.graph = some g) :
    ∃ m ps tail, r.perms = ps :: tail ∧ g = toGraph o m ∧ (shuffle ps vs).Perm vs ∧
      DAInv (shuffle ps vs) (shuffle ps vs) m := by
  obtain ⟨ps, r1, m, hp, hloop, hgraph, -⟩ := DirectedAcyclic_some fuel o vs r res hv h
  obtain ⟨hps, hperms, -⟩ := randPerm_some _ r r1 ps hp
  have hperm : (shuffle ps vs).Perm vs := shuffle_perm ps vs hps
  have hnd : (shuffle ps vs).Nodup := hperm.nodup_iff.2 ((ValidVertices_eq_none vs).1 hv).2
  have hlen : (shuffle ps vs).length = vs.length := hperm.length_eq
  rw [← hlen] at hloop
  have hloop2 := daLoop_mono fuel (max fuel ((shuffle ps vs).length + 1)) o (shuffle ps vs)
    (shuffle ps vs).length (le_max_left _ _) (shuffle ps vs) [] r1 _ hloop
  have hinv := daLoop_some (max fuel ((shuffle ps vs).length + 1)) o (shuffle ps vs) hnd
    (lt_of_lt_of_le (Nat.lt_succ_self _) (le_max_right _ _))
    (shuffle ps vs) [] [] r1 m res.rand rfl (daInv_nil _) hloop2
  rw [hgraph] at hg
  exact ⟨m, ps, r1.perms, hperms, (Option.some.inj hg).symm, hperm, hinv⟩

/-! ## canAdd: what the verdict means -/

theorem canAddLoop_false_reaches (ord : Nat → List Vertex → List Vertex)
    (hord : ∀ n ks x, x ∈ ord n ks → x ∈ ks) (m : VMap) (srcTry d : Vertex) (fuel : Nat) :
    ∀ (n : Nat) (q : Vertices), (∀ x ∈ q, Relation.ReflTransGen (Edge m) d x) →
      canAddLoop ord m srcTry fuel n q = some false →
      Relation.ReflTransGen (Edge m) d srcTry := by
  induction fuel with
  | zero =>
    intro n q _ h
    cases q with
    | nil => simp [canAddLoop] at h
    | cons head q => simp [canAddLoop] at h
  | succ f ih =>
    intro n q hq h
    cases q with
    | nil => simp [canAddLoop] at h
    | cons head q =>
      have hhead := hq head (List.mem_cons_self _ _)
      have hq2 : ∀ x ∈ q, Relation.ReflTransGen (Edge m) d x :=
        fun x hx => hq x (List.mem_cons_of_mem _ hx)
      rw [canAddLoop_cons] at h
      by_cases hh : head = srcTry
      · rw [← hh]
        exact hhead
      · simp only [hh, if_false] at h
        cases hl : lookup m head with
        | none =>
          simp only [hl] at h
          exact ih _ q hq2 h
        | some ks =>
          simp only [hl] at h
          apply ih _ _ _ h
          intro x hx
          rcases List.mem_append.1 hx with hx | hx
          · exact hq2 x hx
          · have hxk : x ∈ ks := hord n ks x (List.mem_of_mem_filter hx)
            exact Relation.ReflTransGen.tail hhead ⟨ks, hl, hxk⟩

theorem canAddLoop_true_closed (ord : Nat → List Vertex → List Vertex)
    (hord : ∀ n ks x, x ∈ ks → x ∈ ord n ks) (m : VMap) (srcTry : Vertex) (fuel : Nat) :
    ∀ (n : Nat) (q P : Vertices), srcTry ∉ P →
      (∀ p ∈ P, ∀ c, Edge m p c → c ∈ P ∨ c ∈ q) →
      canAddLoop ord m srcTry fuel n q = some true →
      ∃ P2 : Vertices, srcTry ∉ P2 ∧ (∀ x ∈ P, x ∈ P2) ∧ (∀ x ∈ q, x ∈ P2) ∧
        ∀ p ∈ P2, ∀ c, Edge m p c → c ∈ P2 := by
  induction fuel with
  | zero =>
    intro n q P hsrc hcl h
    cases q with
    | nil =>
      refine ⟨P, hsrc, fun x hx => hx, by simp, ?_⟩
      intro p hp c hc
      rcases hcl p hp c hc with h1 | h1
      · exact h1
      · simp at h1
    | cons head q => simp [canAddLoop] at h
  | succ f ih =>
    intro n q P hsrc hcl h
    cases q with
    | nil =>
      refine ⟨P, hsrc, fun x hx => hx, by simp, ?_⟩
      intro p hp c hc
      rcases hcl p hp c hc with h1 | h1
      · exact h1
      · simp at h1
    | cons head q =>
      rw [canAddLoop_cons] at h
      by_cases hh : head = srcTry
      · simp [hh] at h
      · simp only [hh, if_false] at h
        have hsrc2 : srcTry ∉ head :: P := by
          intro hmem
          rcases List.mem_cons.1 hmem with e | hmem
          · exact hh e.symm
          · exact hsrc hmem
        cases hl : lookup m head with
        | none =>
          simp only [hl] at h
          obtain ⟨P2, h1, h2, h3, h4⟩ := ih _ q (head :: P) hsrc2 (by
            intro p hp c hc
            rcases List.mem_cons.1 hp with rfl | hp
            · obtain ⟨ds, hds, -⟩ := hc
              rw [hl] at hds
              exact Option.noConfusion hds
            · rcases hcl p hp c hc with h5 | h5
              · exact Or.inl (List.mem_cons_of_mem _ h5)
              · rcases List.mem_cons.1 h5 with rfl | h5
                · exact Or.inl (List.mem_cons_self _ _)
                · exact Or.inr h5) h
          refine ⟨P2, h1, fun x hx => h2 x (List.mem_cons_of_mem _ hx), ?_, h4⟩
          intro x hx
          rcases List.mem_cons.1 hx with rfl | hx
          · exact h2 x (List.mem_cons_self _ _)
          · exact h3 x hx
        | some ks =>
          simp only [hl] at h
          obtain ⟨P2, h1, h2, h3, h4⟩ := ih _ _ (head :: P) hsrc2 (by
            intro p hp c hc
            rcases List.mem_cons.1 hp with rfl | hp
            · obtain ⟨ds, hds, hcd⟩ := hc
              rw [hl] at hds
              rw [← Option.some.inj hds] at hcd
              by_cases hcq : c ∈ q
              · exact Or.inr (List.mem_append_left _ hcq)
              · refine Or.inr (List.mem_append_right _ (List.mem_filter.2 ⟨hord n ks c hcd, ?_⟩))
                simpa using hcq
            · rcases hcl p hp c hc with h5 | h5
              · exact Or.inl (List.mem_cons_of_mem _ h5)
              · rcases List.mem_cons.1 h5 with rfl | h5
                · exact Or.inl (List.mem_cons_self _ _)
                · exact Or.inr (List.mem_append_left _ h5)) h
          refine ⟨P2, h1, fun x hx => h2 x (List.mem_cons_of_mem _ hx), ?_, h4⟩
          intro x hx
          rcases List.mem_cons.1 hx with rfl | hx
          · exact h2 x (List.mem_cons_self _ _)
          · exact h3 x (List.mem_append_left _ hx)

theorem canAdd_sound (fuel : Nat) (o : MapOrder) (m : VMap) (srcTry dstTry : Vertex) (b : Bool)
    (h : canAdd fuel o m srcTry dstTry = some b) :
    b = false ↔ Relation.ReflTransGen (Edge m) dstTry srcTry := by
  unfold canAdd at h
  by_cases hsd : srcTry = dstTry
  · simp only [hsd, if_true, Option.some.injEq] at h
    rw [← h, hsd]
    exact ⟨fun _ => Relation.ReflTransGen.refl, fun _ => rfl⟩
  · simp only [hsd, if_false] at h
    cases b with
    | false =>
      refine ⟨fun _ => ?_, fun _ => rfl⟩
      apply canAddLoop_false_reaches (o.bfs srcTry dstTry)
        (fun n ks x hx => (o.bfs_perm srcTry dstTry n ks).mem_iff.1 hx) m srcTry dstTry fuel 0
        [dstTry] _ h
      intro x hx
      rw [List.mem_singleton.1 hx]
    | true =>
      refine ⟨fun e => Bool.noConfusion e, fun hreach => ?_⟩
      exfalso
      obtain ⟨P2, h1, -, h3, h4⟩ := canAddLoop_true_closed (o.bfs srcTry dstTry)
        (fun n ks x hx => (o.bfs_perm srcTry dstTry n ks).mem_iff.2 hx) m srcTry fuel 0
        [dstTry] [] (by simp) (by simp) h
      have hall : ∀ x, Relation.ReflTransGen (Edge m) dstTry x → x ∈ P2 := by
        intro x hx
        induction hx with
        | refl => exact h3 dstTry (List.mem_singleton_self _)
        | tail _ hstep ih => exact h4 _ ih _ hstep
      exact h1 (hall srcTry hreach)

/-! ## canAdd: the queue empties on an acyclic map -/

theorem edge_dst_mem (m : VMap) (a b : Vertex) (h : Edge m a b) :
    b ∈ (edgeList m).map Prod.snd :=
  List.mem_map.2 ⟨(a, b), edge_mem_edgeList m a b h, rfl⟩

theorem wf_of_acyclic (m : VMap) (hacyc : ∀ v, ¬ Reaches m v v) :
    WellFounded (fun c p => Edge m p c) := by
  let T := {x // x ∈ (edgeList m).map Prod.snd}
  let s : T → T → Prop := fun x y => Relation.TransGen (fun c p => Edge m p c) x.1 y.1
  haveI : IsTrans T s := ⟨fun _ _ _ h1 h2 => Relation.TransGen.trans h1 h2⟩
  haveI : IsIrrefl T s := ⟨fun x hx => hacyc x.1 (Relation.transGen_swap.1 hx)⟩
  have hwf : WellFounded s := Finite.wellFounded_of_trans_of_irrefl s
  have hacc : ∀ x : T, Acc (fun c p => Edge m p c) x.1 := by
    intro x
    induction x using hwf.induction with
    | _ x ih =>
      refine Acc.intro _ (fun c h => ?_)
      exact ih ⟨c, edge_dst_mem m _ _ h⟩ (Relation.TransGen.single h)
  exact ⟨fun a => Acc.intro _ (fun c h => hacc ⟨c, edge_dst_mem m _ _ h⟩)⟩

theorem coe_add_singleton (h : Vertex) (t : Vertices) :
    (↑t : Multiset Vertex) + {h} = ↑(h :: t) := by
  rw [← Multiset.coe_singleton, Multiset.coe_add]
  exact Multiset.coe_eq_coe.2 (List.perm_append_singleton h t)

theorem canAddLoop_terminates (ord : Nat → List Vertex → List Vertex)
    (hord : ∀ n ks x, x ∈ ord n ks → x ∈ ks) (m : VMap) (hacyc : ∀ v, ¬ Reaches m v v)
    (srcTry : Vertex) (q : Vertices) (n : Nat) :
    ∃ fuel b, canAddLoop ord m srcTry fuel n q = some b := by
  have hwf := (wf_of_acyclic m hacyc).cutExpand
  have key : ∀ s : Multiset Vertex, ∀ (q : Vertices) (n : Nat), (↑q : Multiset Vertex) = s →
      ∃ fuel b, canAddLoop ord m srcTry fuel n q = some b := by
    intro s
    induction s using hwf.induction with
    | _ s ih =>
      intro q n hq
      subst hq
      cases q with
      | nil => exact ⟨0, true, by simp [canAddLoop]⟩
      | cons head q =>
        by_cases hh : head = srcTry
        · exact ⟨1, false, by rw [canAddLoop_cons]; simp [hh]⟩
        · cases hl : lookup m head with
          | none =>
            obtain ⟨f, b, hf⟩ := ih ↑q
              ⟨0, head, by simp, by rw [add_zero]; exact coe_add_singleton head q⟩ q (n + 1) rfl
            refine ⟨f + 1, b, ?_⟩
            rw [canAddLoop_cons]
            simp only [hh, if_false, hl]
            exact hf
          | some ks =>
            obtain ⟨f, b, hf⟩ := ih ↑(q ++ (ord n ks).filter (fun k => k ∉ q))
              ⟨↑((ord n ks).filter (fun k => k ∉ q)), head, by
                intro c hc
                have hc2 : c ∈ (ord n ks).filter (fun k => k ∉ q) := by simpa using hc
                exact ⟨ks, hl, hord n ks c (List.mem_of_mem_filter hc2)⟩, by
                rw [coe_add_singleton, Multiset.coe_add]
                rfl⟩ _ (n + 1) rfl
            refine ⟨f + 1, b, ?_⟩
            rw [canAddLoop_cons]
            simp only [hh, if_false, hl]
            exact hf
  exact key ↑q q n rfl

theorem canAdd_terminates (o : MapOrder) (m : VMap) (hacyc : ∀ v, ¬ Reaches m v v)
    (srcTry dstTry : Vertex) :
    ∃ F b, ∀ fuel, F ≤ fuel → canAdd fuel o m srcTry dstTry = some b := by
  by_cases hsd : srcTry = dstTry
  · exact ⟨0, false, fun fuel _ => by simp [canAdd, hsd]⟩
  · obtain ⟨F, b, hF⟩ := canAddLoop_terminates (o.bfs srcTry dstTry)
      (fun n ks x hx => (o.bfs_perm srcTry dstTry n ks).mem_iff.1 hx) m hacyc srcTry
      [dstTry] 0
    refine ⟨F, b, fun fuel hle => ?_⟩
    simp only [canAdd, hsd, if_false]
    exact canAddLoop_mono _ m srcTry F 0 [dstTry] b fuel hle hF

theorem acyclic_of_order (m : VMap) (L : Vertices)
    (h : ∀ p ∈ edgeList m, L.indexOf p.1 < L.indexOf p.2) : ∀ v, ¬ Reaches m v v := by
  intro v hv
  exact lt_irrefl _ (reaches_indexOf_lt m L
    (fun a b hab => h (a, b) (edge_mem_edgeList m a b hab)) v v hv)

theorem canAddLoop_two_cycle (ord : Nat → List Vertex → List Vertex)
    (hord : ∀ n x, ord n [x] = [x]) (fuel : Nat) :
    ∀ n, canAddLoop ord [("a", ["b"]), ("b", ["a"])] "c" fuel n ["a"] = none ∧
      canAddLoop ord [("a", ["b"]), ("b", ["a"])] "c" fuel n ["b"] = none := by
  induction fuel with
  | zero =>
    intro n
    exact ⟨rfl, rfl⟩
  | succ f ih =>
    intro n
    have hac : ¬ ("a" : Vertex) = "c" := by decide
    have hbc : ¬ ("b" : Vertex) = "c" := by decide
    have hla : lookup [("a", ["b"]), ("b", ["a"])] "a" = some ["b"] := by decide
    have hlb : lookup [("a", ["b"]), ("b", ["a"])] "b" = some ["a"] := by decide
    constructor
    · rw [canAddLoop_cons]
      simp only [hac, if_false, hla, hord, List.nil_append, List.not_mem_nil,
        not_false_eq_true, decide_True, List.filter_true]
      exact (ih (n + 1)).2
    · rw [canAddLoop_cons]
      simp only [hbc, if_false, hlb, hord, List.nil_append, List.not_mem_nil,
        not_false_eq_true, decide_True, List.filter_true]
      exact (ih (n + 1)).1

/-! ## DirectedAcyclic: the map at every canAdd call -/

theorem daLoop_prefix (fuel : Nat) (o : MapOrder) (L : Vertices) (hnd : L.Nodup)
    (hfuel : L.length < fuel) (todo : Vertices) :
    ∀ (done rest : Vertices) (m : VMap) (r : Rand), L = done ++ todo ++ rest →
      DAInv L done m → (∀ p ∈ r.perms, p.Perm (List.range L.length)) →
      todo.length ≤ r.perms.length →
      ∃ m2 r2, daLoop fuel o L L.length todo m r = some (m2, r2) ∧
        DAInv L (done ++ todo) m2 ∧ r2.perms = r.perms.drop todo.length := by
  induction todo with
  | nil =>
    intro done rest m r _ h _ _
    exact ⟨m, r, rfl, by simpa using h, by simp⟩
  | cons src todo ih =>
    intro done rest m r hL h hvalid hlen
    cases hperms : r.perms with
    | nil => simp [hperms] at hlen
    | cons p ptail =>
      have hp : p.Perm (List.range L.length) := hvalid p (by simp [hperms])
      obtain ⟨m1, hinner, hinv⟩ := daLoop_step fuel o L done (todo ++ rest) src
        (by simp [hL]) hnd hfuel m h p hp
      have hlen2 : todo.length ≤ ptail.length := by
        simp only [hperms, List.length_cons] at hlen
        omega
      obtain ⟨m2, r2, hrun, hinv2, hr2⟩ := ih (done ++ [src]) rest m1 { r with perms := ptail }
        (by simp [hL]) hinv (fun q hq => hvalid q (by simp [hperms, hq])) hlen2
      refine ⟨m2, r2, ?_, by simpa using hinv2, by simpa using hr2⟩
      unfold daLoop
      simp only [randPerm_of_cons _ r p ptail hperms hp, hinner]
      exact hrun

theorem daInner_acyclic (L done : Vertices) (src : Vertex) (seen : Vertices) (m : VMap)
    (h : DAInner L done src seen m) : ∀ v, ¬ Reaches m v v := by
  intro v hv
  refine lt_irrefl _ (reaches_indexOf_lt m L ?_ v v hv)
  intro a b hab
  rcases (h.2.2 a b).1 hab with h1 | h1
  · exact h1.2.2
  · rw [h1.1]
    exact h1.2.2

theorem daInner_calls (fuel : Nat) (o : MapOrder) (L done rest : Vertices) (src : Vertex)
    (hL : L = done ++ src :: rest) (hnd : L.Nodup) (hfuel : L.length < fuel)
    (m : VMap) (h : DAInv L done m) (pre post : Vertices) (dst : Vertex)
    (hsub : ∀ d ∈ pre ++ dst :: post, d ∈ L) :
    ∃ mk, daInner fuel o src pre (ensureKey m src) = some mk ∧ (∀ v, ¬ Reaches mk v v) ∧
      (dst ≠ src → ∃ b, canAdd fuel o mk src dst = some b) := by
  have hsrc : src ∉ done := by
    intro hmem
    rw [hL] at hnd
    exact (List.nodup_append.1 hnd).2.2 hmem (List.mem_cons_self _ _)
  obtain ⟨mk, hrun, hinv⟩ := daInner_spec fuel o L done rest src hL hnd hfuel pre []
    (ensureKey m src) (by simp) (fun d hd => hsub d (List.mem_append_left _ hd))
    (daInner_start L done src m h hsrc)
  refine ⟨mk, hrun, daInner_acyclic L done src _ mk hinv, ?_⟩
  intro hds
  obtain ⟨m3, hrun3, -⟩ := daInner_spec fuel o L done rest src hL hnd hfuel [dst] ([] ++ pre)
    mk (fun d hd => hsub d (List.mem_append_left _ (by simpa using hd)))
    (fun d hd => hsub d (by simp [List.mem_singleton.1 hd])) hinv
  cases hc : canAdd fuel o mk src dst with
  | none => simp [daInner, hds, hc] at hrun3
  | some b => exact ⟨b, rfl⟩

/-! ## UndirectedCyclic: the draw and the walk of one source -/

theorem drawPick_first_nonzero (l : Nat) (ints rest : List Nat) (pick : Nat)
    (h : drawPick l ints = some (pick, rest)) :
    ∃ k, ints = List.replicate k 0 ++ pick :: rest := by
  induction ints with
  | nil => simp [drawPick] at h
  | cons x xs ih =>
    unfold drawPick at h
    by_cases hx : x < l
    · by_cases h0 : x = 0
      · subst h0
        simp only [hx, if_true, ne_eq, not_true_eq_false, if_false] at h
        obtain ⟨k, hk⟩ := ih h
        exact ⟨k + 1, by rw [hk]; rfl⟩
      · simp only [hx, if_true, ne_eq, h0, not_false_eq_true, Option.some.injEq,
          Prod.mk.injEq] at h
        obtain ⟨rfl, rfl⟩ := h
        exact ⟨0, rfl⟩
    · simp [hx] at h

theorem ucWalk_stops (src : Vertex) (pick : Nat) (rest : Vertices) :
    ∀ picked : Nat, picked < pick →
      pick - picked ≤ (rest.filter (fun d => d ≠ src)).length →
      ∃ pre c post, rest = pre ++ c :: post ∧ c ≠ src ∧
        ((pre ++ [c]).filter (fun d => d ≠ src)).length = pick - picked ∧
        ∀ (post2 : Vertices) (m : VMap),
          ucWalk src pick (pre ++ c :: post2) picked m = ucWalk src pick (pre ++ [c]) picked m := by
  induction rest with
  | nil =>
    intro picked hlt hle
    simp at hle
    omega
  | cons dst rest ih =>
    intro picked hlt hle
    by_cases hds : dst = src
    · have hfil : (dst :: rest).filter (fun d => d ≠ src) = rest.filter (fun d => d ≠ src) := by
        simp [hds]
      rw [hfil] at hle
      obtain ⟨pre, c, post, hrest, hc, hcount, hwalk⟩ := ih picked hlt hle
      have hne : ¬ picked = pick := by omega
      refine ⟨dst :: pre, c, post, by rw [hrest]; rfl, hc, ?_, ?_⟩
      · rw [← hcount]
        simp [hds]
      · intro post2 m
        have h1 : ucWalk src pick (dst :: pre ++ c :: post2) picked m =
            ucWalk src pick (pre ++ c :: post2) picked m := by
          simp [ucWalk, hds, hne]
        have h2 : ucWalk src pick (dst :: pre ++ [c]) picked m =
            ucWalk src pick (pre ++ [c]) picked m := by
          simp [ucWalk, hds, hne]
        rw [h1, h2]
        exact hwalk post2 m
    · have hfil : (dst :: rest).filter (fun d => d ≠ src) =
          dst :: rest.filter (fun d => d ≠ src) := by
        simp [hds]
      rw [hfil, List.length_cons] at hle
      by_cases hp : picked + 1 = pick
      · refine ⟨[], dst, rest, rfl, hds, ?_, ?_⟩
        · simp [hds]
          omega
        · intro post2 m
          simp [ucWalk, hds, hp]
      · obtain ⟨pre, c, post, hrest, hc, hcount, hwalk⟩ := ih (picked + 1) (by omega) (by omega)
        refine ⟨dst :: pre, c, post, by rw [hrest]; rfl, hc, ?_, ?_⟩
        · have h3 : (dst :: pre ++ [c]).filter (fun d => d ≠ src) =
              dst :: (pre ++ [c]).filter (fun d => d ≠ src) := by
            simp [hds]
          rw [h3, List.length_cons, hcount]
          omega
        · intro post2 m
          have h1 : ucWalk src pick (dst :: pre ++ c :: post2) picked m =
              ucWalk src pick (pre ++ c :: post2) (picked + 1)
                (setTrue (ensureKey (setTrue m src dst) dst) dst src) := by
            simp [ucWalk, hds, hp]
          have h2 : ucWalk src pick (dst :: pre ++ [c]) picked m =
              ucWalk src pick (pre ++ [c]) (picked + 1)
                (setTrue (ensureKey (setTrue m src dst) dst) dst src) := by
            simp [ucWalk, hds, hp]
          rw [h1, h2]
          exact hwalk post2 _

theorem ucLoop_cons (vsSrc : Vertices) (l : Nat) (src : Vertex) (rest : Vertices) (m : VMap)
    (r : Rand) :
    ucLoop vsSrc l (src :: rest) m r =
      match randPerm l r with
      | none => none
      | some (ps, r1) =>
        match drawPick l r1.ints with
        | none => none
        | some (pick, ints2) =>
          ucLoop vsSrc l rest
            (ucWalk src pick (shuffle ps vsSrc) 0 (ensureKey m src))
            { r1 with ints := ints2 } := by
  rw [ucLoop]

theorem ucLoop_append (vsSrc : Vertices) (l : Nat) (pre post : Vertices) :
    ∀ (m : VMap) (r : Rand),
      ucLoop vsSrc l (pre ++ post) m r =
        (ucLoop vsSrc l pre m r).bind (fun mr => ucLoop vsSrc l post mr.1 mr.2) := by
  induction pre with
  | nil =>
    intro m r
    simp [ucLoop]
  | cons src pre ih =>
    intro m r
    rw [List.cons_append, ucLoop_cons, ucLoop_cons]
    cases hp : randPerm l r with
    | none => simp
    | some pr =>
      obtain ⟨ps, r1⟩ := pr
      simp only
      cases hd : drawPick l r1.ints with
      | none => simp
      | some pi =>
        obtain ⟨pick, ints2⟩ := pi
        simp only
        exact ih _ _

/-! ## DirectedAcyclic: a loop over a list runs its first part, then the rest -/

theorem daInner_cons (fuel : Nat) (o : MapOrder) (src dst : Vertex) (rest : Vertices)
    (m : VMap) :
    daInner fuel o src (dst :: rest) m =
      if dst ≠ src then
        match canAdd fuel o m src dst with
        | none => none
        | some true => daInner fuel o src rest (setTrue m src dst)
        | some false => daInner fuel o src rest m
      else daInner fuel o src rest m := by
  rw [daInner]

theorem daInner_append (fuel : Nat) (o : MapOrder) (src : Vertex) (pre post : Vertices) :
    ∀ m : VMap, daInner fuel o src (pre ++ post) m =
      (daInner fuel o src pre m).bind (fun mk => daInner fuel o src post mk) := by
  induction pre with
  | nil =>
    intro m
    simp [daInner]
  | cons dst pre ih =>
    intro m
    rw [List.cons_append, daInner_cons, daInner_cons]
    by_cases hds : dst = src
    · simp only [hds, ne_eq, not_true_eq_false, if_false]
      exact ih m
    · simp only [ne_eq, hds, not_false_eq_true, if_true]
      cases hc : canAdd fuel o m src dst with
      | none => simp
      | some b =>
        cases b with
        | true => exact ih _
        | false => exact ih _

theorem daLoop_cons (fuel : Nat) (o : MapOrder) (vsSrc : Vertices) (l : Nat) (src : Vertex)
    (rest : Vertices) (m : VMap) (r : Rand) :
    daLoop fuel o vsSrc l (src :: rest) m r =
      match randPerm l r with
      | none => none
      | some (ps, r1) =>
        match daInner fuel o src (shuffle ps vsSrc) (ensureKey m src) with
        | none => none
        | some m1 => daLoop fuel o vsSrc l rest m1 r1 := by
  rw [daLoop]

theorem daLoop_append (fuel : Nat) (o : MapOrder) (vsSrc : Vertices) (l : Nat)
    (pre post : Vertices) :
    ∀ (m : VMap) (r : Rand), daLoop fuel o vsSrc l (pre ++ post) m r =
      (daLoop fuel o vsSrc l pre m r).bind (fun mr => daLoop fuel o vsSrc l post mr.1 mr.2) := by
  induction pre with
  | nil =>
    intro m r
    simp [daLoop]
  | cons src pre ih =>
    intro m r
    rw [List.cons_append, daLoop_cons, daLoop_cons]
    cases hp : randPerm l r with
    | none => simp
    | some pr =>
      obtain ⟨ps, r1⟩ := pr
      simp only
      cases hi : daInner fuel o src (shuffle ps vsSrc) (ensureKey m src) with
      | none => simp
      | some m1 =>
        simp only
        exact ih _ _

/-! ## ValidVertices: the claims -/

/-- C4: `ValidVertices` returns nil exactly when the list has at least two
elements and they are pairwise distinct; it does so on `[a, b, c]`. -/
theorem ValidVertices_nil_iff :
    (∀ vs : Vertices, ValidVertices vs = none ↔ 2 ≤ vs.length ∧ vs.Nodup) ∧
      ValidVertices ["a", "b", "c"] = none :=
  ⟨ValidVertices_eq_none, by decide⟩

/-- C5: `ValidVertices` returns the error "nil or inadequate vertices" exactly
when the list has fewer than two elements (nil, empty or a singleton), and on
such a list it never returns the repeated-vertex error. -/
theorem ValidVertices_inadequate_iff (vs : Vertices) :
    (ValidVertices vs = some VError.inadequate ↔ vs.length < 2) ∧
      (vs.length < 2 → ∀ v, ValidVertices vs ≠ some (VError.repeated v)) ∧
      VError.inadequate.message = "nil or inadequate vertices" := by
  refine ⟨?_, ?_, rfl⟩
  · unfold ValidVertices
    by_cases h : vs.length < 2
    · simp [h]
    · simp only [h, if_false, iff_false]
      intro hs
      obtain ⟨_, _, _, _, he, _⟩ := dupScan_eq_some vs [] _ hs
      exact VError.noConfusion he
  · intro h v
    simp [ValidVertices, h]

theorem ValidVertices_inadequate_iff_witness :
    (ValidVertices ["a"] = some VError.inadequate ↔ ["a"].length < 2) ∧
      (["a"].length < 2 → ∀ v, ValidVertices ["a"] ≠ some (VError.repeated v)) ∧
      VError.inadequate.message = "nil or inadequate vertices" :=
  ValidVertices_inadequate_iff ["a"]

/-- C6: on a list in which some vertex occurs more than once, `ValidVertices`
returns the repeated-vertex error for the element at the smallest index `i`
such that `vs[i]` already occurs among `vs[0..i)`. -/
theorem ValidVertices_repeated (vs : Vertices) (hdup : ¬ vs.Nodup) :
    ∃ (i : Nat) (hi : i < vs.length),
      ValidVertices vs = some (VError.repeated vs[i]) ∧
      vs[i] ∈ vs.take i ∧
      (∀ (j : Nat) (hj : j < vs.length), j < i → vs[j] ∉ vs.take j) ∧
      (VError.repeated vs[i]).message = "repeated vertex " ++ vs[i] := by
  have hlen : ¬ vs.length < 2 := fun h => hdup (nodup_of_length_lt_two vs h)
  have hne : dupScan vs [] ≠ none := by
    intro h
    exact hdup ((dupScan_eq_none vs []).1 h).1
  obtain ⟨e, he⟩ := Option.ne_none_iff_exists'.1 hne
  obtain ⟨pre, v, post, hvs, hev, hv, hnd, -⟩ := dupScan_eq_some vs [] e he
  have hvpre : v ∈ pre := by
    rcases hv with hv | hv
    · simp at hv
    · exact hv
  subst hvs
  subst hev
  have hi : pre.length < (pre ++ v :: post).length := by simp
  have hget : (pre ++ v :: post)[pre.length] = v :=
    List.getElem_of_append rfl rfl
  refine ⟨pre.length, hi, ?_, ?_, ?_, rfl⟩
  · rw [hget]
    simp only [ValidVertices, hlen, if_false, he]
  · rw [hget]
    simpa using hvpre
  · intro j hj hji
    have hjp : j < pre.length := hji
    rw [List.getElem_append_left hjp, List.take_append_of_le_length (Nat.le_of_lt hjp)]
    exact getElem_not_mem_take_of_nodup pre hnd j hjp

theorem ValidVertices_repeated_witness :
    ∃ (i : Nat) (hi : i < ["a", "b", "c", "b"].length),
      ValidVertices ["a", "b", "c", "b"] = some (VError.repeated ["a", "b", "c", "b"][i]) ∧
      ["a", "b", "c", "b"][i] ∈ ["a", "b", "c", "b"].take i ∧
      (∀ (j : Nat) (hj : j < ["a", "b", "c", "b"].length), j < i →
        ["a", "b", "c", "b"][j] ∉ ["a", "b", "c", "b"].take j) ∧
      (VError.repeated ["a", "b", "c", "b"][i]).message =
        "repeated vertex " ++ ["a", "b", "c", "b"][i] :=
  ValidVertices_repeated ["a", "b", "c", "b"] (by decide)

/-! ## Validation comes first: the claim -/

/-- C3: both generators reject exactly what `ValidVertices` rejects.  When
`ValidVertices` returns an error `e`, each returns a nil graph with that same
`e` and leaves the random source untouched.  When it returns nil, each result
is a non-nil graph with a nil error, and the call does return one as soon as
the source answers its calls (and `canAdd` is given `len(vs) + 1` steps). -/
theorem generators_validate_first (fuel : Nat) (o : MapOrder) (vs : Vertices) (r : Rand) :
    (∀ e, ValidVertices vs = some e →
      UndirectedCyclic o vs r = some ⟨none, some e, r⟩ ∧
        DirectedAcyclic fuel o vs r = some ⟨none, some e, r⟩) ∧
    (ValidVertices vs = none →
      (∀ res, UndirectedCyclic o vs r = some res → res.graph ≠ none ∧ res.err = none) ∧
      (∀ res, DirectedAcyclic fuel o vs r = some res → res.graph ≠ none ∧ res.err = none) ∧
      (ServesPerms vs.length r → ServesInts vs.length r →
        ∃ g r2, UndirectedCyclic o vs r = some ⟨some g, none, r2⟩) ∧
      (ServesPerms vs.length r → vs.length < fuel →
        ∃ g r2, DirectedAcyclic fuel o vs r = some ⟨some g, none, r2⟩)) := by
  refine ⟨?_, ?_⟩
  · intro e he
    simp [UndirectedCyclic, DirectedAcyclic, he]
  · intro hv
    refine ⟨?_, ?_, ?_, ?_⟩
    · intro res h
      obtain ⟨-, -, m, -, -, hg, herr⟩ := UndirectedCyclic_some o vs r res hv h
      exact ⟨by simp [hg], herr⟩
    · intro res h
      obtain ⟨-, -, m, -, -, hg, herr⟩ := DirectedAcyclic_some fuel o vs r res hv h
      exact ⟨by simp [hg], herr⟩
    · exact fun hp hi => UndirectedCyclic_total o vs r hv hp hi
    · exact fun hp hf => DirectedAcyclic_total fuel o vs r hv hf hp

theorem generators_validate_first_witness :
    (ValidVertices ["a", "b", "c", "b"] = some (VError.repeated "b") ∧
      UndirectedCyclic insertionOrder ["a", "b", "c", "b"] ⟨[[1, 0]], [3]⟩ =
        some ⟨none, some (VError.repeated "b"), ⟨[[1, 0]], [3]⟩⟩ ∧
      DirectedAcyclic 0 insertionOrder ["a", "b", "c", "b"] ⟨[[1, 0]], [3]⟩ =
        some ⟨none, some (VError.repeated "b"), ⟨[[1, 0]], [3]⟩⟩) ∧
    (ValidVertices ["a"] = some VError.inadequate ∧
      UndirectedCyclic insertionOrder ["a"] ⟨[], []⟩ =
        some ⟨none, some VError.inadequate, ⟨[], []⟩⟩ ∧
      DirectedAcyclic 0 insertionOrder ["a"] ⟨[], []⟩ =
        some ⟨none, some VError.inadequate, ⟨[], []⟩⟩) ∧
    (ValidVertices ["a", "b", "c"] = none ∧
      (∃ g r2, UndirectedCyclic insertionOrder ["a", "b", "c"]
          ⟨[[2, 0, 1], [0, 1, 2], [1, 2, 0], [2, 1, 0]], [0, 1, 2, 0, 1]⟩ =
        some ⟨some g, none, r2⟩) ∧
      (∃ g r2, DirectedAcyclic 4 insertionOrder ["a", "b", "c"]
          ⟨[[2, 0, 1], [0, 1, 2], [1, 2, 0], [2, 1, 0]], [0, 1, 2, 0, 1]⟩ =
        some ⟨some g, none, r2⟩)) :=
  ⟨⟨by decide,
      (generators_validate_first 0 insertionOrder ["a", "b", "c", "b"] ⟨[[1, 0]], [3]⟩).1
        (VError.repeated "b") (by decide)⟩,
    ⟨by decide,
      (generators_validate_first 0 insertionOrder ["a"] ⟨[], []⟩).1
        VError.inadequate (by decide)⟩,
    ⟨by decide,
      ((generators_validate_first 4 insertionOrder ["a", "b", "c"]
        ⟨[[2, 0, 1], [0, 1, 2], [1, 2, 0], [2, 1, 0]], [0, 1, 2, 0, 1]⟩).2
          (by decide)).2.2.1 ⟨by decide, by decide⟩ ⟨by decide, by decide⟩,
      ((generators_validate_first 4 insertionOrder ["a", "b", "c"]
        ⟨[[2, 0, 1], [0, 1, 2], [1, 2, 0], [2, 1, 0]], [0, 1, 2, 0, 1]⟩).2
          (by decide)).2.2.2 ⟨by decide, by decide⟩ (by decide)⟩⟩

/-! ## UndirectedCyclic: the claims -/

/-- C2: the graph `UndirectedCyclic` returns on a validated list is fully
symmetric: for every key `src` and every `dst` in `g[src]`, `dst` is a key of
`g` and `src` is in `g[dst]`, whatever the random source returned. -/
theorem UndirectedCyclic_symmetric (o : MapOrder) (vs : Vertices) (r : Rand) (res : Result)
    (g : Graph) (hv : ValidVertices vs = none) (h : UndirectedCyclic o vs r = some res)
    (hg : res.graph = some g) (src : Vertex) (dsts : Vertices)
    (hsrc : lookup g src = some dsts) (dst : Vertex) (hdst : dst ∈ dsts) :
    dst ∈ keys g ∧ ∃ back, lookup g dst = some back ∧ src ∈ back := by
  obtain ⟨m, vsSrc, rfl, -, hinv, -⟩ := UndirectedCyclic_inv o vs r res g hv h hg
  have hedge : Edge (toGraph o m) src dst := ⟨dsts, hsrc, hdst⟩
  have hback : Edge (toGraph o m) dst src := by
    rw [edge_toGraph] at hedge ⊢
    exact hinv.sym src dst hedge
  exact ⟨edge_src_mem_keys _ _ _ hback, hback⟩

/-- C7: the keys of the graph `UndirectedCyclic` returns on a validated list are
exactly the input vertices, each once, so there are `len(vs)` of them. -/
theorem UndirectedCyclic_keys (o : MapOrder) (vs : Vertices) (r : Rand) (res : Result)
    (g : Graph) (hv : ValidVertices vs = none) (h : UndirectedCyclic o vs r = some res)
    (hg : res.graph = some g) :
    (keys g).Nodup ∧ (∀ v, v ∈ keys g ↔ v ∈ vs) ∧ (keys g).length = vs.length := by
  obtain ⟨m, vsSrc, rfl, hperm, hinv, hall⟩ := UndirectedCyclic_inv o vs r res g hv h hg
  have hnd : vs.Nodup := ((ValidVertices_eq_none vs).1 hv).2
  rw [keys_toGraph]
  have hiff : ∀ v, v ∈ keys m ↔ v ∈ vs := fun v =>
    ⟨fun hk => hperm.mem_iff.1 (hinv.keys_sub v hk), fun hk => hall v (hperm.mem_iff.2 hk)⟩
  exact ⟨hinv.keys_nodup, hiff,
    ((List.perm_ext_iff_of_nodup hinv.keys_nodup hnd).2 hiff).length_eq⟩

theorem UndirectedCyclic_symmetric_witness :
    UndirectedCyclic reverseOrder ["a", "b", "c"]
        ⟨[[2, 0, 1], [0, 1, 2], [1, 2, 0], [2, 1, 0]], [0, 1, 2, 1]⟩ =
      some ⟨some [("c", ["a"]), ("a", ["b", "c"]), ("b", ["a"])], none, ⟨[], []⟩⟩ ∧
    ("b" ∈ keys [("c", ["a"]), ("a", ["b", "c"]), ("b", ["a"])] ∧
      ∃ back, lookup [("c", ["a"]), ("a", ["b", "c"]), ("b", ["a"])] "b" = some back ∧
        "a" ∈ back) :=
  ⟨by decide,
    UndirectedCyclic_symmetric reverseOrder ["a", "b", "c"]
      ⟨[[2, 0, 1], [0, 1, 2], [1, 2, 0], [2, 1, 0]], [0, 1, 2, 1]⟩
      ⟨some [("c", ["a"]), ("a", ["b", "c"]), ("b", ["a"])], none, ⟨[], []⟩⟩
      [("c", ["a"]), ("a", ["b", "c"]), ("b", ["a"])] (by decide) (by decide) rfl
      "a" ["b", "c"] (by decide) "b" (by decide)⟩

theorem UndirectedCyclic_keys_witness :
    UndirectedCyclic reverseOrder ["a", "b", "c", "d", "e", "f"]
        ⟨[[3, 0, 5, 1, 4, 2], [1, 0, 2, 3, 4, 5], [5, 4, 3, 2, 1, 0], [0, 2, 4, 1, 3, 5],
          [2, 3, 4, 5, 0, 1], [4, 0, 1, 5, 2, 3], [0, 1, 2, 3, 4, 5]],
          [0, 2, 1, 0, 0, 3, 1, 5, 1]⟩ =
      some ⟨some [("d", ["c", "e", "f", "a"]), ("a", ["e", "f", "c", "d"]),
        ("f", ["b", "a", "e", "d"]), ("c", ["d", "e", "a"]),
        ("e", ["b", "c", "a", "d", "f"]), ("b", ["e", "f"])], none, ⟨[], []⟩⟩ ∧
    (keys [("d", ["c", "e", "f", "a"]), ("a", ["e", "f", "c", "d"]),
        ("f", ["b", "a", "e", "d"]), ("c", ["d", "e", "a"]),
        ("e", ["b", "c", "a", "d", "f"]), ("b", ["e", "f"])]).length = 6 :=
  ⟨by decide,
    (UndirectedCyclic_keys reverseOrder ["a", "b", "c", "d", "e", "f"]
      ⟨[[3, 0, 5, 1, 4, 2], [1, 0, 2, 3, 4, 5], [5, 4, 3, 2, 1, 0], [0, 2, 4, 1, 3, 5],
          [2, 3, 4, 5, 0, 1], [4, 0, 1, 5, 2, 3], [0, 1, 2, 3, 4, 5]],
          [0, 2, 1, 0, 0, 3, 1, 5, 1]⟩
      ⟨some [("d", ["c", "e", "f", "a"]), ("a", ["e", "f", "c", "d"]),
        ("f", ["b", "a", "e", "d"]), ("c", ["d", "e", "a"]),
        ("e", ["b", "c", "a", "d", "f"]), ("b", ["e", "f"])], none, ⟨[], []⟩⟩
      [("d", ["c", "e", "f", "a"]), ("a", ["e", "f", "c", "d"]),
        ("f", ["b", "a", "e", "d"]), ("c", ["d", "e", "a"]),
        ("e", ["b", "c", "a", "d", "f"]), ("b", ["e", "f"])]
      (by decide) (by decide) rfl).2.2⟩

/-- C9: for distinct `a` and `b`, whatever the random source returned,
`UndirectedCyclic([a, b])` returns, with a nil error, exactly the graph
`{a:[b], b:[a]}`: two keys, each with the other vertex as its only neighbour. -/
theorem UndirectedCyclic_pair (o : MapOrder) (a b : Vertex) (r : Rand) (res : Result)
    (hab : a ≠ b) (h : UndirectedCyclic o [a, b] r = some res) :
    ∃ g, res.graph = some g ∧ res.err = none ∧
      (keys g).Perm [a, b] ∧ lookup g a = some [b] ∧ lookup g b = some [a] := by
  have hv : ValidVertices [a, b] = none := by
    rw [ValidVertices_eq_none]
    exact ⟨by simp, by simp [hab]⟩
  have hba : b ≠ a := fun e => hab e.symm
  obtain ⟨ps, r1, m, hp, hloop, hgraph, herr⟩ := UndirectedCyclic_some o [a, b] r res hv h
  have hout : ∀ k v, o.out k [v] = [v] := fun k v => List.perm_singleton.1 (o.out_perm k [v])
  refine ⟨toGraph o m, hgraph, herr, ?_⟩
  rcases shuffle_two ps a b (randPerm_some _ r r1 ps hp).1 with hs | hs
  · rw [hs] at hloop
    rw [ucLoop_two a b hab r1 res.rand m hloop]
    refine ⟨?_, ?_, ?_⟩
    · simp [toGraph, keys]
    · simp [toGraph, lookup, hout]
    · simp [toGraph, lookup, hout, hab]
  · rw [hs] at hloop
    rw [ucLoop_two b a hba r1 res.rand m hloop]
    refine ⟨?_, ?_, ?_⟩
    · simpa [toGraph, keys] using List.Perm.swap a b []
    · simp [toGraph, lookup, hout, hba]
    · simp [toGraph, lookup, hout]

theorem UndirectedCyclic_pair_witness :
    "a" ≠ "b" ∧
    UndirectedCyclic reverseOrder ["a", "b"] ⟨[[1, 0], [0, 1], [1, 0]], [0, 0, 1, 1]⟩ =
      some ⟨some [("b", ["a"]), ("a", ["b"])], none, ⟨[], []⟩⟩ ∧
    ∃ g, (Result.mk (some [("b", ["a"]), ("a", ["b"])]) none ⟨[], []⟩).graph = some g ∧
      (Result.mk (some [("b", ["a"]), ("a", ["b"])]) none ⟨[], []⟩).err = none ∧
      (keys g).Perm ["a", "b"] ∧ lookup g "a" = some ["b"] ∧ lookup g "b" = some ["a"] :=
  ⟨by decide, by decide,
    UndirectedCyclic_pair reverseOrder "a" "b" ⟨[[1, 0], [0, 1], [1, 0]], [0, 0, 1, 1]⟩
      ⟨some [("b", ["a"]), ("a", ["b"])], none, ⟨[], []⟩⟩ (by decide) (by decide)⟩

/-! ## DirectedAcyclic: the claims -/

/-- C1: the graph `DirectedAcyclic` returns on a validated list has no directed
cycle, whatever the random source returned: no vertex reaches itself through
one or more edges; in particular there is no self-loop and no pair of edges
`u -> v`, `v -> u`. -/
theorem DirectedAcyclic_acyclic (fuel : Nat) (o : MapOrder) (vs : Vertices) (r : Rand)
    (res : Result) (g : Graph) (hv : ValidVertices vs = none)
    (h : DirectedAcyclic fuel o vs r = some res) (hg : res.graph = some g) (u v : Vertex) :
    ¬ Reaches g v v ∧ ¬ Edge g v v ∧ ¬ (Edge g u v ∧ Edge g v u) := by
  obtain ⟨m, L, rfl, -, -, hinv, -⟩ := DirectedAcyclic_inv fuel o vs r res g hv h hg
  have hE : ∀ a b, Edge (toGraph o m) a b → L.indexOf a < L.indexOf b := by
    intro a b hab
    rw [edge_toGraph] at hab
    exact ((hinv.2.2 a b).1 hab).2.2
  have hR : ∀ a, ¬ Reaches (toGraph o m) a a :=
    fun a ha => lt_irrefl _ (reaches_indexOf_lt _ L hE a a ha)
  refine ⟨hR v, fun hvv => hR v (Relation.TransGen.single hvv), ?_⟩
  rintro ⟨huv, hvu⟩
  exact hR u (Relation.TransGen.tail (Relation.TransGen.single huv) hvu)

theorem DirectedAcyclic_acyclic_witness :
    ValidVertices ["a", "b", "c"] = none ∧
    DirectedAcyclic 4 reverseOrder ["a", "b", "c"]
        ⟨[[2, 0, 1], [0, 1, 2], [1, 2, 0], [2, 1, 0]], []⟩ =
      some ⟨some [("c", ["b", "a"]), ("a", ["b"]), ("b", [])], none, ⟨[], []⟩⟩ ∧
    (¬ Reaches [("c", ["b", "a"]), ("a", ["b"]), ("b", [])] "b" "b" ∧
      ¬ Edge [("c", ["b", "a"]), ("a", ["b"]), ("b", [])] "b" "b" ∧
      ¬ (Edge [("c", ["b", "a"]), ("a", ["b"]), ("b", [])] "c" "b" ∧
        Edge [("c", ["b", "a"]), ("a", ["b"]), ("b", [])] "b" "c")) :=
  ⟨by decide, by decide,
    DirectedAcyclic_acyclic 4 reverseOrder ["a", "b", "c"]
      ⟨[[2, 0, 1], [0, 1, 2], [1, 2, 0], [2, 1, 0]], []⟩
      ⟨some [("c", ["b", "a"]), ("a", ["b"]), ("b", [])], none, ⟨[], []⟩⟩
      [("c", ["b", "a"]), ("a", ["b"]), ("b", [])] (by decide) (by decide) rfl "c" "b"⟩

/-- C8: the graph `DirectedAcyclic` returns on a validated list has exactly
`len(vs)` keys, the input vertices each once (also those without an outgoing
edge), and every destination listed under a key is itself a key. -/
theorem DirectedAcyclic_keys (fuel : Nat) (o : MapOrder) (vs : Vertices) (r : Rand)
    (res : Result) (g : Graph) (hv : ValidVertices vs = none)
    (h : DirectedAcyclic fuel o vs r = some res) (hg : res.graph = some g) :
    (keys g).length = vs.length ∧ (keys g).Nodup ∧ (∀ v, v ∈ keys g ↔ v ∈ vs) ∧
      ∀ src dsts, lookup g src = some dsts → ∀ dst ∈ dsts, dst ∈ keys g := by
  obtain ⟨m, L, rfl, hperm, hnd, hinv, -⟩ := DirectedAcyclic_inv fuel o vs r res g hv h hg
  have hkeys : keys (toGraph o m) = L := by rw [keys_toGraph, hinv.1]
  rw [hkeys]
  refine ⟨hperm.length_eq, hnd, fun v => hperm.mem_iff, ?_⟩
  intro src dsts hsrc dst hdst
  have hedge : Edge (toGraph o m) src dst := ⟨dsts, hsrc, hdst⟩
  rw [edge_toGraph] at hedge
  exact ((hinv.2.2 src dst).1 hedge).2.1

theorem DirectedAcyclic_keys_witness :
    ValidVertices ["a", "b", "c", "d", "e", "f"] = none ∧
    DirectedAcyclic 7 reverseOrder ["a", "b", "c", "d", "e", "f"]
        ⟨[[3, 0, 5, 1, 4, 2], [1, 0, 2, 3, 4, 5], [5, 4, 3, 2, 1, 0], [0, 2, 4, 1, 3, 5],
          [2, 3, 4, 5, 0, 1], [4, 0, 1, 5, 2, 3], [0, 1, 2, 3, 4, 5]], []⟩ =
      some ⟨some [("d", ["c", "e", "b", "f", "a"]), ("a", ["f", "b", "e", "c"]),
        ("f", ["c", "b", "e"]), ("b", ["c", "e"]), ("e", ["c"]), ("c", [])],
        none, ⟨[], []⟩⟩ ∧
    (keys [("d", ["c", "e", "b", "f", "a"]), ("a", ["f", "b", "e", "c"]),
        ("f", ["c", "b", "e"]), ("b", ["c", "e"]), ("e", ["c"]), ("c", [])]).length = 6 :=
  ⟨by decide, by decide,
    (DirectedAcyclic_keys 7 reverseOrder ["a", "b", "c", "d", "e", "f"]
      ⟨[[3, 0, 5, 1, 4, 2], [1, 0, 2, 3, 4, 5], [5, 4, 3, 2, 1, 0], [0, 2, 4, 1, 3, 5],
          [2, 3, 4, 5, 0, 1], [4, 0, 1, 5, 2, 3], [0, 1, 2, 3, 4, 5]], []⟩
      ⟨some [("d", ["c", "e", "b", "f", "a"]), ("a", ["f", "b", "e", "c"]),
        ("f", ["c", "b", "e"]), ("b", ["c", "e"]), ("e", ["c"]), ("c", [])],
        none, ⟨[], []⟩⟩
      [("d", ["c", "e", "b", "f", "a"]), ("a", ["f", "b", "e", "c"]),
        ("f", ["c", "b", "e"]), ("b", ["c", "e"]), ("e", ["c"]), ("c", [])]
      (by decide) (by decide) rfl).1⟩

/-- C10, the claim as stated fails: on `[a, b]` with the source order `a, b`
the result is `{a:[b], b:[]}`, which has the key `b` that `{a:[b]}` lacks, and
it is not `{b:[a]}` either. -/
theorem DirectedAcyclic_pair_keeps_both_keys :
    DirectedAcyclic 3 insertionOrder ["a", "b"] ⟨[[0, 1], [1, 0], [0, 1]], []⟩ =
      some ⟨some [("a", ["b"]), ("b", [])], none, ⟨[], []⟩⟩ ∧
    lookup [("a", ["b"]), ("b", [])] "b" = some [] ∧
    lookup [("a", ["b"])] "b" = none ∧
    lookup [("b", ["a"])] "b" ≠ lookup [("a", ["b"]), ("b", [])] "b" ∧
    keys [("a", ["b"]), ("b", [])] = ["a", "b"] := by
  decide

/-- C10, amended: for distinct `a` and `b`, whatever the random source returned,
`DirectedAcyclic([a, b])` returns, with a nil error, either `{a:[b], b:[]}` or
`{b:[a], a:[]}`: both vertices are keys, and the edges are just `a -> b` or just
`b -> a`, never both and never none. -/
theorem DirectedAcyclic_pair (fuel : Nat) (o : MapOrder) (a b : Vertex) (r : Rand)
    (res : Result) (hab : a ≠ b) (h : DirectedAcyclic fuel o [a, b] r = some res) :
    ∃ g, res.graph = some g ∧ res.err = none ∧
      ((g = [(a, [b]), (b, [])] ∧ ∀ u v, Edge g u v ↔ (u = a ∧ v = b)) ∨
        (g = [(b, [a]), (a, [])] ∧ ∀ u v, Edge g u v ↔ (u = b ∧ v = a))) := by
  have hv : ValidVertices [a, b] = none := by
    rw [ValidVertices_eq_none]
    exact ⟨by simp, by simp [hab]⟩
  have hba : b ≠ a := fun e => hab e.symm
  obtain ⟨-, -, m0, -, -, hsome, herr⟩ := DirectedAcyclic_some fuel o [a, b] r res hv h
  obtain ⟨m, L, hgm, -, -, hinv, ps, hps, rfl⟩ :=
    DirectedAcyclic_inv fuel o [a, b] r res (toGraph o m0) hv h hsome
  refine ⟨toGraph o m0, hsome, herr, ?_⟩
  rw [hgm]
  · have hout : ∀ k, o.out k [] = [] := fun k => List.perm_nil.1 (o.out_perm k [])
    have hout1 : ∀ k v, o.out k [v] = [v] := fun k v => List.perm_singleton.1 (o.out_perm k [v])
    have hedges : ∀ x y : Vertex, x ≠ y →
        ∀ u v, Edge [(x, [y]), (y, [])] u v ↔ (u = x ∧ v = y) := by
      intro x y hxy u v
      unfold Edge
      by_cases hu : x = u
      · subst hu
        simp [lookup, eq_comm]
      · by_cases hu2 : y = u
        · subst hu2
          simp [lookup, hu]
          exact fun e => absurd e.symm hu
        · simp [lookup, hu, hu2]
          exact fun e => absurd e.symm hu
    rcases shuffle_two ps a b hps with hs | hs
    · rw [hs] at hinv
      rw [daInv_pair a b hab m hinv]
      refine Or.inl ⟨by simp [toGraph, hout, hout1], ?_⟩
      intro u v
      rw [edge_toGraph]
      exact hedges a b hab u v
    · rw [hs] at hinv
      rw [daInv_pair b a hba m hinv]
      refine Or.inr ⟨by simp [toGraph, hout, hout1], ?_⟩
      intro u v
      rw [edge_toGraph]
      exact hedges b a hba u v

theorem DirectedAcyclic_pair_witness :
    "a" ≠ "b" ∧
    DirectedAcyclic 3 reverseOrder ["a", "b"] ⟨[[1, 0], [0, 1], [1, 0]], []⟩ =
      some ⟨some [("b", ["a"]), ("a", [])], none, ⟨[], []⟩⟩ ∧
    ∃ g, (Result.mk (some [("b", ["a"]), ("a", [])]) none ⟨[], []⟩).graph = some g ∧
      (Result.mk (some [("b", ["a"]), ("a", [])]) none ⟨[], []⟩).err = none ∧
      ((g = [("a", ["b"]), ("b", [])] ∧ ∀ u v, Edge g u v ↔ (u = "a" ∧ v = "b")) ∨
        (g = [("b", ["a"]), ("a", [])] ∧ ∀ u v, Edge g u v ↔ (u = "b" ∧ v = "a"))) :=
  ⟨by decide, by decide,
    DirectedAcyclic_pair 3 reverseOrder "a" "b" ⟨[[1, 0], [0, 1], [1, 0]], []⟩
      ⟨some [("b", ["a"]), ("a", [])], none, ⟨[], []⟩⟩ (by decide) (by decide)⟩

/-- C19: the graph `UndirectedCyclic` returns on a validated list has no
self-loop: no vertex is listed in its own neighbour list. -/
theorem UndirectedCyclic_no_self_loop (o : MapOrder) (vs : Vertices) (r : Rand)
    (res : Result) (g : Graph) (hv : ValidVertices vs = none)
    (h : UndirectedCyclic o vs r = some res) (hg : res.graph = some g)
    (v : Vertex) (ds : Vertices) (hl : lookup g v = some ds) : v ∉ ds := by
  obtain ⟨m, vsSrc, rfl, -, hinv, -⟩ := UndirectedCyclic_inv o vs r res g hv h hg
  intro hmem
  have hedge : Edge (toGraph o m) v v := ⟨ds, hl, hmem⟩
  rw [edge_toGraph] at hedge
  exact hinv.noself v hedge

theorem UndirectedCyclic_no_self_loop_witness :
    ValidVertices ["a", "b", "c"] = none ∧
    UndirectedCyclic reverseOrder ["a", "b", "c"]
        ⟨[[2, 0, 1], [0, 1, 2], [1, 2, 0], [2, 1, 0]], [0, 1, 2, 1]⟩ =
      some ⟨some [("c", ["a"]), ("a", ["b", "c"]), ("b", ["a"])], none, ⟨[], []⟩⟩ ∧
    lookup [("c", ["a"]), ("a", ["b", "c"]), ("b", ["a"])] "a" = some ["b", "c"] ∧
    "a" ∉ ["b", "c"] :=
  ⟨by decide, by decide, by decide,
    UndirectedCyclic_no_self_loop reverseOrder ["a", "b", "c"]
      ⟨[[2, 0, 1], [0, 1, 2], [1, 2, 0], [2, 1, 0]], [0, 1, 2, 1]⟩
      ⟨some [("c", ["a"]), ("a", ["b", "c"]), ("b", ["a"])], none, ⟨[], []⟩⟩
      [("c", ["a"]), ("a", ["b", "c"]), ("b", ["a"])] (by decide) (by decide) rfl
      "a" ["b", "c"] (by decide)⟩

/-- C11: in the graph `UndirectedCyclic` returns on a validated list every input
vertex has at least one edge: it is a key and its neighbour list is not empty,
whatever the random source returned. -/
theorem UndirectedCyclic_every_vertex_has_edge (o : MapOrder) (vs : Vertices) (r : Rand)
    (res : Result) (g : Graph) (hv : ValidVertices vs = none)
    (h : UndirectedCyclic o vs r = some res) (hg : res.graph = some g)
    (v : Vertex) (hmem : v ∈ vs) : ∃ ds, lookup g v = some ds ∧ ds ≠ [] := by
  obtain ⟨ps, r1, m, hp, hloop, hgraph, -⟩ := UndirectedCyclic_some o vs r res hv h
  have hperm : (shuffle ps vs).Perm vs := shuffle_perm ps vs (randPerm_some _ r r1 ps hp).1
  have hvalid := (ValidVertices_eq_none vs).1 hv
  obtain ⟨c, hc⟩ := ucLoop_has_edge (shuffle ps vs) vs.length hperm.length_eq.symm
    (hperm.nodup_iff.2 hvalid.2) hvalid.1 (shuffle ps vs) [] r1 m res.rand
    (fun s hs => hs) hloop v (hperm.mem_iff.2 hmem)
  rw [hgraph] at hg
  rw [← Option.some.inj hg]
  obtain ⟨ds, hds, hcd⟩ := (edge_toGraph o m v c).2 hc
  exact ⟨ds, hds, List.ne_nil_of_mem hcd⟩

theorem UndirectedCyclic_every_vertex_has_edge_witness :
    ValidVertices ["a", "b", "c"] = none ∧
    UndirectedCyclic reverseOrder ["a", "b", "c"]
        ⟨[[2, 0, 1], [0, 1, 2], [1, 2, 0], [2, 1, 0]], [0, 1, 2, 1]⟩ =
      some ⟨some [("c", ["a"]), ("a", ["b", "c"]), ("b", ["a"])], none, ⟨[], []⟩⟩ ∧
    "b" ∈ ["a", "b", "c"] ∧
    ∃ ds, lookup [("c", ["a"]), ("a", ["b", "c"]), ("b", ["a"])] "b" = some ds ∧ ds ≠ [] :=
  ⟨by decide, by decide, by decide,
    UndirectedCyclic_every_vertex_has_edge reverseOrder ["a", "b", "c"]
      ⟨[[2, 0, 1], [0, 1, 2], [1, 2, 0], [2, 1, 0]], [0, 1, 2, 1]⟩
      ⟨some [("c", ["a"]), ("a", ["b", "c"]), ("b", ["a"])], none, ⟨[], []⟩⟩
      [("c", ["a"]), ("a", ["b", "c"]), ("b", ["a"])] (by decide) (by decide) rfl
      "b" (by decide)⟩

/-- C12: `UndirectedCyclic` does not guarantee a connected graph: on the four
vertices `a, b, c, d`, when every accepted draw is 1 and the first candidates
are `b` for `a`, `a` for `b`, `d` for `c` and `c` for `d`, the result is
`{a:[b], b:[a], c:[d], d:[c]}`, in which no path joins `a` and `c`. -/
theorem UndirectedCyclic_can_be_partitioned :
    ValidVertices ["a", "b", "c", "d"] = none ∧
    UndirectedCyclic insertionOrder ["a", "b", "c", "d"]
        ⟨[[0, 1, 2, 3], [1, 0, 2, 3], [0, 1, 2, 3], [3, 2, 0, 1], [2, 3, 0, 1]],
          [1, 0, 1, 1, 1]⟩ =
      some ⟨some [("a", ["b"]), ("b", ["a"]), ("c", ["d"]), ("d", ["c"])], none, ⟨[], []⟩⟩ ∧
    ¬ Joined [("a", ["b"]), ("b", ["a"]), ("c", ["d"]), ("d", ["c"])] "a" "c" ∧
    ¬ Reaches [("a", ["b"]), ("b", ["a"]), ("c", ["d"]), ("d", ["c"])] "a" "c" ∧
    ¬ Reaches [("a", ["b"]), ("b", ["a"]), ("c", ["d"]), ("d", ["c"])] "c" "a" := by
  have hJ : ¬ Joined [("a", ["b"]), ("b", ["a"]), ("c", ["d"]), ("d", ["c"])] "a" "c" := by
    intro hj
    have hmem := joined_closed _ ["a", "b"] (by decide) "a" "c" hj (by decide)
    revert hmem
    decide
  have hJ2 : ¬ Joined [("a", ["b"]), ("b", ["a"]), ("c", ["d"]), ("d", ["c"])] "c" "a" := by
    intro hj
    have hmem := joined_closed _ ["c", "d"] (by decide) "c" "a" hj (by decide)
    revert hmem
    decide
  have hRJ : ∀ x y, Reaches [("a", ["b"]), ("b", ["a"]), ("c", ["d"]), ("d", ["c"])] x y →
      Joined [("a", ["b"]), ("b", ["a"]), ("c", ["d"]), ("d", ["c"])] x y := by
    intro x y hr
    exact Relation.ReflTransGen.mono (fun _ _ he => Or.inl he) hr.to_reflTransGen
  exact ⟨by decide, by decide, hJ, fun hr => hJ (hRJ _ _ hr), fun hr => hJ2 (hRJ _ _ hr)⟩

/-- C13, the claim as stated fails: there is no validated input and no outcome
of the random source for which the result of `DirectedAcyclic` has two input
vertices that no undirected path joins. -/
theorem DirectedAcyclic_never_partitioned :
    ¬ ∃ (fuel : Nat) (o : MapOrder) (vs : Vertices) (r : Rand) (res : Result) (g : Graph)
        (u v : Vertex),
      ValidVertices vs = none ∧ DirectedAcyclic fuel o vs r = some res ∧ res.graph = some g ∧
        u ∈ vs ∧ v ∈ vs ∧ ¬ Joined g u v := by
  rintro ⟨fuel, o, vs, r, res, g, u, v, hv, h, hg, hu, hw, hnot⟩
  by_cases huv : u = v
  · subst huv
    exact hnot Relation.ReflTransGen.refl
  · exact hnot (Relation.ReflTransGen.single
      (DirectedAcyclic_adjacent fuel o vs r res g hv h hg u v hu hw huv))

/-- C13, amended: the graph `DirectedAcyclic` returns on a validated list is
connected when edge directions are ignored, whatever the random source
returned: any two distinct input vertices are joined by an edge in one of the
two directions. -/
theorem DirectedAcyclic_connected (fuel : Nat) (o : MapOrder) (vs : Vertices) (r : Rand)
    (res : Result) (g : Graph) (hv : ValidVertices vs = none)
    (h : DirectedAcyclic fuel o vs r = some res) (hg : res.graph = some g)
    (u v : Vertex) (hu : u ∈ vs) (hw : v ∈ vs) :
    Joined g u v ∧ (u ≠ v → Edge g u v ∨ Edge g v u) := by
  refine ⟨?_, DirectedAcyclic_adjacent fuel o vs r res g hv h hg u v hu hw⟩
  by_cases huv : u = v
  · subst huv
    exact Relation.ReflTransGen.refl
  · exact Relation.ReflTransGen.single
      (DirectedAcyclic_adjacent fuel o vs r res g hv h hg u v hu hw huv)

theorem DirectedAcyclic_connected_witness :
    ValidVertices ["a", "b", "c"] = none ∧
    DirectedAcyclic 4 reverseOrder ["a", "b", "c"]
        ⟨[[2, 0, 1], [0, 1, 2], [1, 2, 0], [2, 1, 0]], []⟩ =
      some ⟨some [("c", ["b", "a"]), ("a", ["b"]), ("b", [])], none, ⟨[], []⟩⟩ ∧
    "b" ∈ ["a", "b", "c"] ∧ "c" ∈ ["a", "b", "c"] ∧
    (Joined [("c", ["b", "a"]), ("a", ["b"]), ("b", [])] "b" "c" ∧
      ("b" ≠ "c" → Edge [("c", ["b", "a"]), ("a", ["b"]), ("b", [])] "b" "c" ∨
        Edge [("c", ["b", "a"]), ("a", ["b"]), ("b", [])] "c" "b")) :=
  ⟨by decide, by decide, by decide, by decide,
    DirectedAcyclic_connected 4 reverseOrder ["a", "b", "c"]
      ⟨[[2, 0, 1], [0, 1, 2], [1, 2, 0], [2, 1, 0]], []⟩
      ⟨some [("c", ["b", "a"]), ("a", ["b"]), ("b", [])], none, ⟨[], []⟩⟩
      [("c", ["b", "a"]), ("a", ["b"]), ("b", [])] (by decide) (by decide) rfl
      "b" "c" (by decide) (by decide)⟩

/-- C20: the edges of the graph `DirectedAcyclic` returns are fixed by the first
permutation alone.  With `vsSrc` the source order it gives, `u -> v` is an edge
exactly when `u` stands before `v` in `vsSrc`; so between two distinct vertices
there is an edge in exactly one direction, the `i`-th source has `n - 1 - i`
neighbours, there are `n (n - 1) / 2` edges, and a second run that starts from
the same first permutation has the same edges whatever its other shuffles and
its map iteration order are. -/
theorem DirectedAcyclic_complete (fuel fuel2 : Nat) (o o2 : MapOrder) (vs : Vertices)
    (r r2 : Rand) (res res2 : Result) (g g2 : Graph) (hv : ValidVertices vs = none)
    (h : DirectedAcyclic fuel o vs r = some res) (hg : res.graph = some g)
    (h2 : DirectedAcyclic fuel2 o2 vs r2 = some res2) (hg2 : res2.graph = some g2)
    (hsame : r2.perms.head? = r.perms.head?) :
    ∃ ps tail, r.perms = ps :: tail ∧ keys g = shuffle ps vs ∧
      (∀ u v, Edge g u v ↔
        (u ∈ vs ∧ v ∈ vs ∧ (shuffle ps vs).indexOf u < (shuffle ps vs).indexOf v)) ∧
      (∀ u v, u ∈ vs → v ∈ vs → u ≠ v → (Edge g u v ↔ ¬ Edge g v u)) ∧
      (∀ (i : Nat) (hi : i < (shuffle ps vs).length),
        ∃ ds, lookup g (shuffle ps vs)[i] = some ds ∧ ds.length = vs.length - 1 - i) ∧
      (edgeList g).length = vs.length * (vs.length - 1) / 2 ∧
      (∀ u v, Edge g2 u v ↔ Edge g u v) := by
  obtain ⟨m, ps, tail, hperms, rfl, hperm, hinv⟩ :=
    DirectedAcyclic_inv_first fuel o vs r res g hv h hg
  obtain ⟨m2, ps2, tail2, hperms2, rfl, -, hinv2⟩ :=
    DirectedAcyclic_inv_first fuel2 o2 vs r2 res2 g2 hv h2 hg2
  have hps : ps2 = ps := by
    rw [hperms, hperms2] at hsame
    simpa using hsame
  subst hps
  have hnd : (shuffle ps2 vs).Nodup := hperm.nodup_iff.2 ((ValidVertices_eq_none vs).1 hv).2
  have hlen : (shuffle ps2 vs).length = vs.length := hperm.length_eq
  have hchar : ∀ u v, Edge (toGraph o m) u v ↔
      (u ∈ vs ∧ v ∈ vs ∧ (shuffle ps2 vs).indexOf u < (shuffle ps2 vs).indexOf v) := by
    intro u v
    rw [edge_toGraph, hinv.2.2 u v, hperm.mem_iff, hperm.mem_iff]
  refine ⟨ps2, tail, hperms, by rw [keys_toGraph, hinv.1], hchar, ?_, ?_, ?_, ?_⟩
  · intro u v hu hw huv
    have hne : (shuffle ps2 vs).indexOf u ≠ (shuffle ps2 vs).indexOf v := fun e =>
      huv ((List.indexOf_inj (hperm.mem_iff.2 hu) (hperm.mem_iff.2 hw)).1 e)
    rw [hchar u v, hchar v u]
    constructor
    · rintro ⟨-, -, hlt⟩ ⟨-, -, hgt⟩
      omega
    · intro hnot
      refine ⟨hu, hw, ?_⟩
      by_contra hge
      exact hnot ⟨hw, hu, by omega⟩
  · intro i hi
    obtain ⟨s, hs, hsp⟩ := daInv_outdegree (shuffle ps2 vs) m hnd hinv i hi
    refine ⟨o.out (shuffle ps2 vs)[i] s, by rw [lookup_toGraph, hs]; rfl, ?_⟩
    rw [(o.out_perm _ s).length_eq, hsp.length_eq, List.length_drop, hlen]
    omega
  · rw [length_edgeList, degrees_toGraph, daInv_degrees (shuffle ps2 vs) m hnd hinv, hlen]
    exact sum_countdown vs.length
  · intro u v
    rw [edge_toGraph, edge_toGraph, hinv.2.2 u v, hinv2.2.2 u v]

theorem DirectedAcyclic_complete_witness :
    ValidVertices ["a", "b", "c"] = none ∧
    DirectedAcyclic 4 reverseOrder ["a", "b", "c"]
        ⟨[[2, 0, 1], [0, 1, 2], [1, 2, 0], [2, 1, 0]], []⟩ =
      some ⟨some [("c", ["b", "a"]), ("a", ["b"]), ("b", [])], none, ⟨[], []⟩⟩ ∧
    DirectedAcyclic 5 insertionOrder ["a", "b", "c"]
        ⟨[[2, 0, 1], [1, 2, 0], [0, 2, 1], [1, 0, 2]], [1]⟩ =
      some ⟨some [("c", ["a", "b"]), ("a", ["b"]), ("b", [])], none, ⟨[], [1]⟩⟩ ∧
    (edgeList [("c", ["b", "a"]), ("a", ["b"]), ("b", [])]).length = 3 * (3 - 1) / 2 ∧
    ∀ u v, Edge [("c", ["a", "b"]), ("a", ["b"]), ("b", [])] u v ↔
      Edge [("c", ["b", "a"]), ("a", ["b"]), ("b", [])] u v :=
  ⟨by decide, by decide, by decide,
    (DirectedAcyclic_complete 4 5 reverseOrder insertionOrder ["a", "b", "c"]
      ⟨[[2, 0, 1], [0, 1, 2], [1, 2, 0], [2, 1, 0]], []⟩
      ⟨[[2, 0, 1], [1, 2, 0], [0, 2, 1], [1, 0, 2]], [1]⟩
      ⟨some [("c", ["b", "a"]), ("a", ["b"]), ("b", [])], none, ⟨[], []⟩⟩
      ⟨some [("c", ["a", "b"]), ("a", ["b"]), ("b", [])], none, ⟨[], [1]⟩⟩
      [("c", ["b", "a"]), ("a", ["b"]), ("b", [])]
      [("c", ["a", "b"]), ("a", ["b"]), ("b", [])]
      (by decide) (by decide) rfl (by decide) rfl (by decide)).elim
        (fun _ hx => hx.elim (fun _ hy => ⟨hy.2.2.2.2.2.1, hy.2.2.2.2.2.2⟩))⟩

/-! ## canAdd: the claims -/

/-- C16: `canAdd(srcTry, dstTry)` returns false when `srcTry == dstTry`.
Otherwise, over an acyclic `m`, it returns (given enough steps) a verdict that
is false exactly when `srcTry` is reachable from `dstTry` along edges of `m`,
and true exactly when it is not.  Whenever it returns, over any `m`, the
verdict is right: checking new vertices only against the current queue never
hides a vertex that `dstTry` reaches. -/
theorem canAdd_verdict (o : MapOrder) (m : VMap) (srcTry dstTry : Vertex)
    (hacyc : ∀ v, ¬ Reaches m v v) :
    (srcTry = dstTry → ∀ fuel, canAdd fuel o m srcTry dstTry = some false) ∧
    (srcTry ≠ dstTry →
      (∃ F b, (∀ fuel, F ≤ fuel → canAdd fuel o m srcTry dstTry = some b) ∧
        (b = false ↔ Reaches m dstTry srcTry) ∧ (b = true ↔ ¬ Reaches m dstTry srcTry)) ∧
      ∀ fuel b, canAdd fuel o m srcTry dstTry = some b →
        (b = false ↔ Reaches m dstTry srcTry)) := by
  have hiff : srcTry ≠ dstTry → ∀ fuel b, canAdd fuel o m srcTry dstTry = some b →
      (b = false ↔ Reaches m dstTry srcTry) := by
    intro hne fuel b hb
    rw [canAdd_sound fuel o m srcTry dstTry b hb, Relation.reflTransGen_iff_eq_or_transGen]
    constructor
    · rintro (e | hr)
      · exact absurd e hne
      · exact hr
    · exact Or.inr
  refine ⟨fun e fuel => by simp [canAdd, e], fun hne => ⟨?_, hiff hne⟩⟩
  obtain ⟨F, b, hF⟩ := canAdd_terminates o m hacyc srcTry dstTry
  have h1 := hiff hne F b (hF F (Nat.le_refl F))
  refine ⟨F, b, hF, h1, ?_⟩
  rw [← h1]
  cases b <;> simp

theorem canAdd_verdict_witness :
    ("d" ≠ "a" →
      (∃ F b, (∀ fuel, F ≤ fuel →
          canAdd fuel reverseOrder [("a", ["b", "c"]), ("b", ["d"]), ("c", ["d"])] "d" "a" =
            some b) ∧
        (b = false ↔ Reaches [("a", ["b", "c"]), ("b", ["d"]), ("c", ["d"])] "a" "d") ∧
        (b = true ↔ ¬ Reaches [("a", ["b", "c"]), ("b", ["d"]), ("c", ["d"])] "a" "d")) ∧
      ∀ fuel b,
        canAdd fuel reverseOrder [("a", ["b", "c"]), ("b", ["d"]), ("c", ["d"])] "d" "a" =
          some b →
        (b = false ↔ Reaches [("a", ["b", "c"]), ("b", ["d"]), ("c", ["d"])] "a" "d")) ∧
    canAdd 4 reverseOrder [("a", ["b", "c"]), ("b", ["d"]), ("c", ["d"])] "d" "a" =
      some false :=
  ⟨(canAdd_verdict reverseOrder [("a", ["b", "c"]), ("b", ["d"]), ("c", ["d"])] "d" "a"
      (acyclic_of_order _ ["a", "b", "c", "d"] (by decide))).2,
    by decide⟩

/-- C17, the claim as stated fails: on the finite map `{a:{b}, b:{a}}`, which has
a cycle, the queue of `canAdd(c, a)` is `[a]`, `[b]`, `[a]`, ... and never gets
empty, so whatever the iteration order and however many steps are allowed the
call returns no boolean. -/
theorem canAdd_loops_on_cycle :
    ¬ ∃ (o : MapOrder) (fuel : Nat) (b : Bool),
      canAdd fuel o [("a", ["b"]), ("b", ["a"])] "c" "a" = some b := by
  rintro ⟨o, fuel, b, h⟩
  have hca : ¬ ("c" : Vertex) = "a" := by decide
  simp only [canAdd, hca, if_false] at h
  rw [(canAddLoop_two_cycle (o.bfs "c" "a")
    (fun n x => List.perm_singleton.1 (o.bfs_perm "c" "a" n [x])) fuel 0).1] at h
  exact Option.noConfusion h

/-- C17, amended: on every finite acyclic edge map `m` (shared ancestors
included) and for every `srcTry`, `dstTry` and iteration order, the queue loop
of `canAdd` ends and `canAdd` returns a boolean: some number of steps is
enough, and more steps give the same verdict. -/
theorem canAdd_terminates_on_acyclic (o : MapOrder) (m : VMap) (srcTry dstTry : Vertex)
    (hacyc : ∀ v, ¬ Reaches m v v) :
    ∃ F b, ∀ fuel, F ≤ fuel → canAdd fuel o m srcTry dstTry = some b :=
  canAdd_terminates o m hacyc srcTry dstTry

theorem canAdd_terminates_on_acyclic_witness :
    (∀ v, ¬ Reaches [("a", ["b", "c"]), ("b", ["d"]), ("c", ["d"])] v v) ∧
    (∃ F b, ∀ fuel, F ≤ fuel →
      canAdd fuel insertionOrder [("a", ["b", "c"]), ("b", ["d"]), ("c", ["d"])] "e" "a" =
        some b) ∧
    canAdd 5 insertionOrder [("a", ["b", "c"]), ("b", ["d"]), ("c", ["d"])] "e" "a" =
      some true :=
  ⟨acyclic_of_order _ ["a", "b", "c", "d"] (by decide),
    canAdd_terminates_on_acyclic insertionOrder [("a", ["b", "c"]), ("b", ["d"]), ("c", ["d"])]
      "e" "a" (acyclic_of_order _ ["a", "b", "c", "d"] (by decide)),
    by decide⟩

/-! ## Determinism: the claim -/

/-- C15: the generators add no nondeterminism to that of the random source.  Two
runs of `UndirectedCyclic`, or of `DirectedAcyclic`, on the same `vs` and the
same values from the random source give graphs with the same keys and the same
neighbours under each key, whatever the map iteration orders `o1` and `o2`
are; and the verdict of `canAdd` on a map does not depend on the iteration
order either. -/
theorem generators_deterministic (vs : Vertices) (r : Rand) (o1 o2 : MapOrder)
    (f1 f2 : Nat) :
    (∀ res1 res2 g1 g2, UndirectedCyclic o1 vs r = some res1 →
      UndirectedCyclic o2 vs r = some res2 → res1.graph = some g1 → res2.graph = some g2 →
      keys g1 = keys g2 ∧ ∀ k x, Edge g1 k x ↔ Edge g2 k x) ∧
    (∀ res1 res2 g1 g2, DirectedAcyclic f1 o1 vs r = some res1 →
      DirectedAcyclic f2 o2 vs r = some res2 → res1.graph = some g1 → res2.graph = some g2 →
      keys g1 = keys g2 ∧ ∀ k x, Edge g1 k x ↔ Edge g2 k x) ∧
    (∀ (m : VMap) (srcTry dstTry : Vertex) (b1 b2 : Bool),
      canAdd f1 o1 m srcTry dstTry = some b1 → canAdd f2 o2 m srcTry dstTry = some b2 →
      b1 = b2) := by
  refine ⟨?_, ?_, ?_⟩
  · intro res1 res2 g1 g2 h1 h2 hg1 hg2
    cases hv : ValidVertices vs with
    | some e =>
      simp only [UndirectedCyclic, hv, Option.some.injEq] at h1
      rw [← h1] at hg1
      exact Option.noConfusion hg1
    | none =>
      obtain ⟨ps1, r1, m1, hp1, hloop1, hgr1, -⟩ := UndirectedCyclic_some o1 vs r res1 hv h1
      obtain ⟨ps2, r2, m2, hp2, hloop2, hgr2, -⟩ := UndirectedCyclic_some o2 vs r res2 hv h2
      rw [hp1] at hp2
      simp only [Option.some.injEq, Prod.mk.injEq] at hp2
      obtain ⟨rfl, rfl⟩ := hp2
      rw [hloop1] at hloop2
      simp only [Option.some.injEq, Prod.mk.injEq] at hloop2
      obtain ⟨rfl, -⟩ := hloop2
      rw [hgr1] at hg1
      rw [hgr2] at hg2
      rw [← Option.some.inj hg1, ← Option.some.inj hg2]
      refine ⟨by rw [keys_toGraph, keys_toGraph], fun k x => ?_⟩
      rw [edge_toGraph, edge_toGraph]
  · intro res1 res2 g1 g2 h1 h2 hg1 hg2
    cases hv : ValidVertices vs with
    | some e =>
      simp only [DirectedAcyclic, hv, Option.some.injEq] at h1
      rw [← h1] at hg1
      exact Option.noConfusion hg1
    | none =>
      obtain ⟨m1, ps1, t1, hperms1, rfl, -, hinv1⟩ :=
        DirectedAcyclic_inv_first f1 o1 vs r res1 g1 hv h1 hg1
      obtain ⟨m2, ps2, t2, hperms2, rfl, -, hinv2⟩ :=
        DirectedAcyclic_inv_first f2 o2 vs r res2 g2 hv h2 hg2
      rw [hperms1] at hperms2
      simp only [List.cons.injEq] at hperms2
      obtain ⟨rfl, -⟩ := hperms2
      refine ⟨by rw [keys_toGraph, keys_toGraph, hinv1.1, hinv2.1], fun k x => ?_⟩
      rw [edge_toGraph, edge_toGraph, hinv1.2.2 k x, hinv2.2.2 k x]
  · intro m srcTry dstTry b1 b2 h1 h2
    have e1 := canAdd_sound f1 o1 m srcTry dstTry b1 h1
    have e2 := canAdd_sound f2 o2 m srcTry dstTry b2 h2
    cases b1 <;> cases b2 <;> simp_all

theorem generators_deterministic_witness :
    (UndirectedCyclic insertionOrder ["a", "b", "c"]
        ⟨[[2, 0, 1], [0, 1, 2], [1, 2, 0], [2, 1, 0]], [0, 1, 2, 1]⟩ =
      some ⟨some [("c", ["a"]), ("a", ["c", "b"]), ("b", ["a"])], none, ⟨[], []⟩⟩ ∧
    UndirectedCyclic reverseOrder ["a", "b", "c"]
        ⟨[[2, 0, 1], [0, 1, 2], [1, 2, 0], [2, 1, 0]], [0, 1, 2, 1]⟩ =
      some ⟨some [("c", ["a"]), ("a", ["b", "c"]), ("b", ["a"])], none, ⟨[], []⟩⟩ ∧
    keys [("c", ["a"]), ("a", ["c", "b"]), ("b", ["a"])] =
      keys [("c", ["a"]), ("a", ["b", "c"]), ("b", ["a"])]) ∧
    (DirectedAcyclic 4 insertionOrder ["a", "b", "c"]
        ⟨[[2, 0, 1], [0, 1, 2], [1, 2, 0], [2, 1, 0]], [0, 1, 2, 1]⟩ =
      some ⟨some [("c", ["a", "b"]), ("a", ["b"]), ("b", [])], none, ⟨[], [0, 1, 2, 1]⟩⟩ ∧
    DirectedAcyclic 7 reverseOrder ["a", "b", "c"]
        ⟨[[2, 0, 1], [0, 1, 2], [1, 2, 0], [2, 1, 0]], [0, 1, 2, 1]⟩ =
      some ⟨some [("c", ["b", "a"]), ("a", ["b"]), ("b", [])], none, ⟨[], [0, 1, 2, 1]⟩⟩ ∧
    ∀ k x, Edge [("c", ["a", "b"]), ("a", ["b"]), ("b", [])] k x ↔
      Edge [("c", ["b", "a"]), ("a", ["b"]), ("b", [])] k x) ∧
    (canAdd 5 insertionOrder [("a", ["b", "c"]), ("b", ["d"]), ("c", ["d"])] "d" "a" =
      some false ∧
    canAdd 9 reverseOrder [("a", ["b", "c"]), ("b", ["d"]), ("c", ["d"])] "d" "a" =
      some false) :=
  ⟨⟨by decide, by decide,
      ((generators_deterministic ["a", "b", "c"]
        ⟨[[2, 0, 1], [0, 1, 2], [1, 2, 0], [2, 1, 0]], [0, 1, 2, 1]⟩
        insertionOrder reverseOrder 4 7).1
        ⟨some [("c", ["a"]), ("a", ["c", "b"]), ("b", ["a"])], none, ⟨[], []⟩⟩
        ⟨some [("c", ["a"]), ("a", ["b", "c"]), ("b", ["a"])], none, ⟨[], []⟩⟩
        [("c", ["a"]), ("a", ["c", "b"]), ("b", ["a"])]
        [("c", ["a"]), ("a", ["b", "c"]), ("b", ["a"])]
        (by decide) (by decide) rfl rfl).1⟩,
    ⟨by decide, by decide,
      ((generators_deterministic ["a", "b", "c"]
        ⟨[[2, 0, 1], [0, 1, 2], [1, 2, 0], [2, 1, 0]], [0, 1, 2, 1]⟩
        insertionOrder reverseOrder 4 7).2.1
        ⟨some [("c", ["a", "b"]), ("a", ["b"]), ("b", [])], none, ⟨[], [0, 1, 2, 1]⟩⟩
        ⟨some [("c", ["b", "a"]), ("a", ["b"]), ("b", [])], none, ⟨[], [0, 1, 2, 1]⟩⟩
        [("c", ["a", "b"]), ("a", ["b"]), ("b", [])]
        [("c", ["b", "a"]), ("a", ["b"]), ("b", [])]
        (by decide) (by decide) rfl rfl).2⟩,
    ⟨by decide, by decide⟩⟩

/-! ## DirectedAcyclic terminates: the claim -/

/-- C14: on a validated list `DirectedAcyclic` cannot fail or run for ever.  Once
the random source answers the `len(vs) + 1` calls of `rand.Perm` (and `canAdd`
is allowed `len(vs) + 1` steps), the call returns a graph and a nil error.  The
second part looks at every call of `canAdd`: for the source `src` that follows
the sources `done`, `m` is the map when its turn starts, and for the candidate
`dst` that follows the candidates `pre` of its shuffle, `mk` is the map on which
`canAdd(src, dst)` runs; `mk` has no cycle and the call returns a boolean. -/
theorem DirectedAcyclic_terminates (fuel : Nat) (o : MapOrder) (vs : Vertices) (r : Rand)
    (hv : ValidVertices vs = none) (hp : ServesPerms vs.length r)
    (hfuel : vs.length < fuel) :
    (∃ g r2, DirectedAcyclic fuel o vs r = some ⟨some g, none, r2⟩) ∧
    (∀ ps r1 done src rest, randPerm vs.length r = some (ps, r1) →
      shuffle ps vs = done ++ src :: rest →
      ∃ m ra psS rb,
        daLoop fuel o (shuffle ps vs) vs.length done [] r1 = some (m, ra) ∧
        randPerm vs.length ra = some (psS, rb) ∧
        ∀ pre dst post, shuffle psS (shuffle ps vs) = pre ++ dst :: post →
          ∃ mk, daInner fuel o src pre (ensureKey m src) = some mk ∧
            (∀ v, ¬ Reaches mk v v) ∧
            (dst ≠ src → ∃ b, canAdd fuel o mk src dst = some b)) := by
  refine ⟨DirectedAcyclic_total fuel o vs r hv hfuel hp, ?_⟩
  intro ps r1 done src rest hp1 hsplit
  obtain ⟨hvalid, hlenp⟩ := hp
  obtain ⟨hps, hperms, -⟩ := randPerm_some _ r r1 ps hp1
  have hperm : (shuffle ps vs).Perm vs := shuffle_perm ps vs hps
  have hnd : (shuffle ps vs).Nodup := hperm.nodup_iff.2 ((ValidVertices_eq_none vs).1 hv).2
  have hlen : (shuffle ps vs).length = vs.length := hperm.length_eq
  have hvalid1 : ∀ p ∈ r1.perms, p.Perm (List.range (shuffle ps vs).length) := by
    intro p hp
    rw [hlen]
    exact hvalid p (by rw [hperms]; exact List.mem_cons_of_mem _ hp)
  have hlen1 : vs.length ≤ r1.perms.length := by
    rw [hperms, List.length_cons] at hlenp
    omega
  have hdone : done.length < vs.length := by
    have h1 := congrArg List.length hsplit
    rw [hlen] at h1
    simp at h1
    omega
  obtain ⟨m, ra, hrun, hinv, hra⟩ := daLoop_prefix fuel o (shuffle ps vs) hnd
    (by rw [hlen]; exact hfuel) done [] (src :: rest) [] r1 (by simpa using hsplit)
    (daInv_nil _) hvalid1 (by omega)
  rw [hlen] at hrun
  rw [List.nil_append] at hinv
  cases hrap : ra.perms with
  | nil =>
    have h1 := congrArg List.length hra
    rw [hrap, List.length_drop] at h1
    simp at h1
    omega
  | cons psS t =>
    have hmem : psS ∈ r1.perms := by
      have h1 : psS ∈ ra.perms := by simp [hrap]
      rw [hra] at h1
      exact List.mem_of_mem_drop h1
    have hpsS := hvalid1 psS hmem
    have hpermS : (shuffle psS (shuffle ps vs)).Perm (shuffle ps vs) :=
      shuffle_perm psS (shuffle ps vs) hpsS
    rw [hlen] at hpsS
    refine ⟨m, ra, psS, { ra with perms := t }, hrun, randPerm_of_cons _ ra psS t hrap hpsS, ?_⟩
    intro pre dst post hsh
    apply daInner_calls fuel o (shuffle ps vs) done rest src hsplit hnd
      (by rw [hlen]; exact hfuel) m hinv pre post dst
    intro d hd
    rw [← hsh] at hd
    exact hpermS.mem_iff.1 hd

theorem DirectedAcyclic_terminates_witness :
    ValidVertices ["a", "b", "c"] = none ∧
    ServesPerms 3 ⟨[[2, 0, 1], [0, 1, 2], [1, 2, 0], [2, 1, 0]], []⟩ ∧
    (∃ g r2, DirectedAcyclic 4 reverseOrder ["a", "b", "c"]
        ⟨[[2, 0, 1], [0, 1, 2], [1, 2, 0], [2, 1, 0]], []⟩ = some ⟨some g, none, r2⟩) ∧
    DirectedAcyclic 4 reverseOrder ["a", "b", "c"]
        ⟨[[2, 0, 1], [0, 1, 2], [1, 2, 0], [2, 1, 0]], []⟩ =
      some ⟨some [("c", ["b", "a"]), ("a", ["b"]), ("b", [])], none, ⟨[], []⟩⟩ :=
  ⟨by decide, ⟨by decide, by decide⟩,
    (DirectedAcyclic_terminates 4 reverseOrder ["a", "b", "c"]
      ⟨[[2, 0, 1], [0, 1, 2], [1, 2, 0], [2, 1, 0]], []⟩ (by decide)
      ⟨by decide, by decide⟩ (by decide)).1,
    by decide⟩

/-! ## UndirectedCyclic, one source at a time: the claim -/

/-- C18: in a run of `UndirectedCyclic` on a validated list of length `l`, take
any source `src`, standing after the sources `done` in the source order; `m` is
the map when its turn starts.  Its accepted draw `pick` is the first non-zero
value of `rand.Intn(l)` and `1 <= pick <= l - 1`, the number of candidates
other than `src`.  The walk over its shuffle stops right after a candidate `c`,
the `pick`-th one other than `src` (what follows `c` is never looked at), and
records an edge and its mirror for exactly the `pick` distinct vertices `C`.
In the returned graph `src` has at least `pick` neighbours. -/
theorem UndirectedCyclic_pick (o : MapOrder) (vs : Vertices) (r : Rand) (res : Result)
    (g : Graph) (hv : ValidVertices vs = none) (h : UndirectedCyclic o vs r = some res)
    (hg : res.graph = some g) (ps : List Nat) (r1 : Rand) (done rest : Vertices)
    (src : Vertex) (hp : randPerm vs.length r = some (ps, r1))
    (hsplit : shuffle ps vs = done ++ src :: rest) :
    ∃ m ra psS rb pick ints2,
      ucLoop (shuffle ps vs) vs.length done [] r1 = some (m, ra) ∧
      randPerm vs.length ra = some (psS, rb) ∧
      drawPick vs.length rb.ints = some (pick, ints2) ∧
      (∃ k, rb.ints = List.replicate k 0 ++ pick :: ints2) ∧
      1 ≤ pick ∧ pick ≤ vs.length - 1 ∧
      ((shuffle psS (shuffle ps vs)).filter (fun d => d ≠ src)).length = vs.length - 1 ∧
      (∃ pre c post, shuffle psS (shuffle ps vs) = pre ++ c :: post ∧ c ≠ src ∧
        ((pre ++ [c]).filter (fun d => d ≠ src)).length = pick ∧
        ∀ (post2 : Vertices) (mm : VMap),
          ucWalk src pick (pre ++ c :: post2) 0 mm = ucWalk src pick (pre ++ [c]) 0 mm) ∧
      (∃ C : Vertices, C.Nodup ∧ C.length = pick ∧ src ∉ C ∧
        ∀ a b, Edge (ucWalk src pick (shuffle psS (shuffle ps vs)) 0 (ensureKey m src)) a b ↔
          Edge m a b ∨ (a = src ∧ b ∈ C) ∨ (a ∈ C ∧ b = src)) ∧
      ∃ ds, lookup g src = some ds ∧ pick ≤ ds.length := by
  obtain ⟨ps2, r12, mfin, hp2, hloop, hgraph, -⟩ := UndirectedCyclic_some o vs r res hv h
  rw [hp] at hp2
  simp only [Option.some.injEq, Prod.mk.injEq] at hp2
  obtain ⟨rfl, rfl⟩ := hp2
  have hperm : (shuffle ps vs).Perm vs := shuffle_perm ps vs (randPerm_some _ r r1 ps hp).1
  have hnd : (shuffle ps vs).Nodup := hperm.nodup_iff.2 ((ValidVertices_eq_none vs).1 hv).2
  have hlen : (shuffle ps vs).length = vs.length := hperm.length_eq
  have hsrcL : src ∈ shuffle ps vs := by
    rw [hsplit]
    simp
  have hloop2 : ucLoop (shuffle ps vs) vs.length (done ++ src :: rest) [] r1 =
      some (mfin, res.rand) := by
    rw [← hsplit]
    exact hloop
  rw [ucLoop_append] at hloop2
  cases hd0 : ucLoop (shuffle ps vs) vs.length done [] r1 with
  | none => simp [hd0] at hloop2
  | some mr =>
    obtain ⟨m, ra⟩ := mr
    simp only [hd0, Option.some_bind] at hloop2
    rw [ucLoop_cons] at hloop2
    cases hpS : randPerm vs.length ra with
    | none => simp [hpS] at hloop2
    | some pr =>
      obtain ⟨psS, rb⟩ := pr
      simp only [hpS] at hloop2
      cases hd : drawPick vs.length rb.ints with
      | none => simp [hd] at hloop2
      | some pi =>
        obtain ⟨pick, ints2⟩ := pi
        simp only [hd] at hloop2
        have hpick := drawPick_some vs.length _ _ _ hd
        have hpermS : (shuffle psS (shuffle ps vs)).Perm (shuffle ps vs) :=
          shuffle_perm psS (shuffle ps vs) (hlen.symm ▸ (randPerm_some _ ra rb psS hpS).1)
        have hndS : (shuffle psS (shuffle ps vs)).Nodup := hpermS.nodup_iff.2 hnd
        have hfil := length_filter_ne (shuffle psS (shuffle ps vs)) src hndS
          (hpermS.mem_iff.2 hsrcL)
        rw [hpermS.length_eq, hlen] at hfil
        have hsrc0 : src ∈ keys (ensureKey m src) :=
          (mem_keys_ensureKey m src src).2 (Or.inr rfl)
        have hedges := ucWalk_edges src pick (shuffle psS (shuffle ps vs)) 0 (ensureKey m src)
          hsrc0 hpick.1
        have hCnd : (((shuffle psS (shuffle ps vs)).filter (fun d => d ≠ src)).take
            (pick - 0)).Nodup :=
          (hndS.sublist (List.filter_sublist _)).sublist (List.take_sublist _ _)
        have hClen : (((shuffle psS (shuffle ps vs)).filter (fun d => d ≠ src)).take
            (pick - 0)).length = pick := by
          rw [List.length_take, hfil]
          omega
        have hCsrc : src ∉ ((shuffle psS (shuffle ps vs)).filter (fun d => d ≠ src)).take
            (pick - 0) := by
          intro hmem
          have h1 := (List.mem_filter.1 (List.mem_of_mem_take hmem)).2
          simp at h1
        have hfinal : ∀ c ∈ ((shuffle psS (shuffle ps vs)).filter (fun d => d ≠ src)).take
            (pick - 0), Edge g src c := by
          intro c hc
          rw [hgraph] at hg
          rw [← Option.some.inj hg, edge_toGraph]
          exact ucLoop_edge_mono _ _ rest _ _ mfin res.rand src c hloop2
            ((hedges src c).2 (Or.inr (Or.inl ⟨rfl, hc⟩)))
        refine ⟨m, ra, psS, rb, pick, ints2, rfl, hpS, hd,
          drawPick_first_nonzero _ _ _ _ hd, hpick.1, by omega, hfil, ?_, ?_, ?_⟩
        · have hstop := ucWalk_stops src pick (shuffle psS (shuffle ps vs)) 0 hpick.1
            (by rw [hfil]; omega)
          simpa using hstop
        · refine ⟨_, hCnd, hClen, hCsrc, ?_⟩
          intro a b
          rw [hedges a b, edge_ensureKey]
        · obtain ⟨c0, cs, hc0⟩ := List.exists_cons_of_ne_nil
            (List.ne_nil_of_length_pos (by rw [hClen]; exact hpick.1))
          obtain ⟨ds, hds, -⟩ := hfinal c0 (by rw [hc0]; exact List.mem_cons_self _ _)
          refine ⟨ds, hds, ?_⟩
          rw [← hClen]
          apply (List.subperm_of_subset hCnd _).length_le
          intro c hc
          obtain ⟨ds2, hds2, hmem⟩ := hfinal c hc
          rw [hds] at hds2
          rw [Option.some.inj hds2]
          exact hmem

theorem UndirectedCyclic_pick_witness :
    ValidVertices ["a", "b", "c"] = none ∧
    UndirectedCyclic reverseOrder ["a", "b", "c"]
        ⟨[[2, 0, 1], [0, 1, 2], [1, 2, 0], [2, 1, 0]], [0, 1, 2, 1]⟩ =
      some ⟨some [("c", ["a"]), ("a", ["b", "c"]), ("b", ["a"])], none, ⟨[], []⟩⟩ ∧
    randPerm 3 ⟨[[2, 0, 1], [0, 1, 2], [1, 2, 0], [2, 1, 0]], [0, 1, 2, 1]⟩ =
      some ([2, 0, 1], ⟨[[0, 1, 2], [1, 2, 0], [2, 1, 0]], [0, 1, 2, 1]⟩) ∧
    shuffle [2, 0, 1] ["a", "b", "c"] = ["c"] ++ "a" :: ["b"] ∧
    ∃ pick, 1 ≤ pick ∧ pick ≤ 3 - 1 ∧
      ∃ ds, lookup [("c", ["a"]), ("a", ["b", "c"]), ("b", ["a"])] "a" = some ds ∧
        pick ≤ ds.length := by
  refine ⟨by decide, by decide, by decide, by decide, ?_⟩
  obtain ⟨_, _, _, _, pick, _, _, _, _, _, h1, h2, _, _, _, hds⟩ :=
    UndirectedCyclic_pick reverseOrder ["a", "b", "c"]
      ⟨[[2, 0, 1], [0, 1, 2], [1, 2, 0], [2, 1, 0]], [0, 1, 2, 1]⟩
      ⟨some [("c", ["a"]), ("a", ["b", "c"]), ("b", ["a"])], none, ⟨[], []⟩⟩
      [("c", ["a"]), ("a", ["b", "c"]), ("b", ["a"])] (by decide) (by decide) rfl
      [2, 0, 1] ⟨[[0, 1, 2], [1, 2, 0], [2, 1, 0]], [0, 1, 2, 1]⟩ ["c"] ["b"] "a"
      (by decide) (by decide)
  exact ⟨pick, h1, h2, hds⟩

end RandomGraph
